import Mathlib

/-!
# Verification of the mbta-homebound trip-planning core

A shallow embedding, in Lean 4, of the trip-planning engine of the
`mbta-homebound` repository (`planner.js`, together with the parts of
`mbta.js` and `notify.js` that the claims reference), and proofs of the
frozen claims about it.

Modelling conventions:
* A JavaScript `Date` is modelled as an `Int`: the local-clock timestamp in
  milliseconds (daylight-saving shifts are outside the model; every claim is
  about arithmetic comparisons and calendar splits of these timestamps).
* `null`/`undefined` values are modelled with `Option`.
* Display strings produced by `fmtHHMM` are modelled by the constructor
  `CellText.time t` carrying the underlying instant; `"—"` is
  `CellText.dash` and `""` is `CellText.empty`.  This is faithful because
  `fmtHHMM` never returns `"—"` or `""`, and the code never compares two
  formatted times as strings.
* JavaScript `Map`s are modelled as association lists in insertion order;
  `Map.get` is first-match lookup (keys of a JS `Map` are unique).
-/

/-! ## Time primitives (planner.js) -/

/-- One minute in milliseconds. -/
def msPerMin : Int := 60000

/-- One day in milliseconds. -/
def msPerDay : Int := 86400000

/-- `floorToMinute` (planner.js): `setSeconds(0, 0)`, i.e. drop the
seconds/milliseconds components of the local timestamp. -/
def floorToMinute (t : Int) : Int := msPerMin * (t.fdiv msPerMin)

/-- `addMinutes(d, min)` (planner.js). -/
def addMinutes (t min : Int) : Int := t + min * msPerMin

/-- The local calendar-day number of an instant: stands for the
`YYYY-MM-DD` string produced by `ymdLocal` (equal day numbers iff equal
strings). -/
def ymdLocalDay (t : Int) : Int := t.fdiv msPerDay

/-- The minutes-of-day of an instant: stands for the `HH:MM` string
produced by `hhmmLocal` (seconds are truncated by the format). -/
def hhmmLocalMin (t : Int) : Int := (t.emod msPerDay).fdiv msPerMin

/-! ## Time-Window Slicer (`scheduleSlicesForWindow`, planner.js) -/

/-- A schedule query slice `{date, min, max}`: `date` is a local calendar
day number, `min`/`max` are minutes-of-day (`"23:59"` is `1439`,
`"00:00"` is `0`). -/
structure Slice where
  date : Int
  min : Int
  max : Int
deriving DecidableEq, Repr

/-- The middle-day `while` loop of `scheduleSlicesForWindow`: starting from
day `cur` (the day after the padded start), push a full-day slice for every
day before `endY`.  The JS loop compares `ymdLocal(cur) !== endY` and steps
one day at a time; it reaches `endY` exactly when `cur ≤ endY`, which the
caller guarantees (for `cur > endY` the JS loop would not terminate; the
model returns `[]` there, and the theorems only quantify over windows with
`start ≤ end` and `0 ≤ pad`, where that regime is never entered). -/
def middleDaySlices (cur endY : Int) : List Slice :=
  if h : cur < endY then
    ⟨cur, 0, 1439⟩ :: middleDaySlices (cur + 1) endY
  else []
termination_by (endY - cur).toNat
decreasing_by
  omega

/-- `scheduleSlicesForWindow(start, end, padMin)` (planner.js, lines
368–397). -/
def scheduleSlicesForWindow (start endT : Int) (padMin : Int) : List Slice :=
  let startPad := addMinutes start (-padMin)
  let endPad := addMinutes endT padMin
  let startY := ymdLocalDay startPad
  let endY := ymdLocalDay endPad
  if startY = endY then
    [⟨startY, hhmmLocalMin startPad, hhmmLocalMin endPad⟩]
  else
    ⟨startY, hhmmLocalMin startPad, 1439⟩ ::
      (middleDaySlices (startY + 1) endY ++ [⟨endY, 0, hhmmLocalMin endPad⟩])

/-- Modelled from the spec (§4.1 contract), for comparison with
`scheduleSlicesForWindow`: one slice spanning the padded range when it
stays within one calendar date; otherwise a first slice up to `23:59`,
one full-day slice per intermediate calendar date, and a last slice from
`00:00` to the padded end time. -/
def slicerSpec (start endT : Int) (padMin : Int) : List Slice :=
  let startPad := start - padMin * msPerMin
  let endPad := endT + padMin * msPerMin
  let d0 := ymdLocalDay startPad
  let d1 := ymdLocalDay endPad
  if d0 = d1 then
    [⟨d0, hhmmLocalMin startPad, hhmmLocalMin endPad⟩]
  else
    (⟨d0, hhmmLocalMin startPad, 1439⟩ ::
      ((List.range (d1 - d0 - 1).toNat).map (fun i => ⟨d0 + 1 + (i : Int), 0, 1439⟩)))
      ++ [⟨d1, 0, hhmmLocalMin endPad⟩]

theorem middleDaySlices_eq_range (endY : Int) :
    ∀ (n : Nat) (cur : Int), (endY - cur).toNat = n →
      middleDaySlices cur endY =
        (List.range n).map (fun i => ⟨cur + (i : Int), 0, 1439⟩) := by
  intro n
  induction n with
  | zero =>
    intro cur h
    rw [middleDaySlices.eq_def]
    have : ¬ cur < endY := by omega
    simp [this]
  | succ k ih =>
    intro cur h
    rw [middleDaySlices.eq_def]
    have hlt : cur < endY := by omega
    have hk : (endY - (cur + 1)).toNat = k := by omega
    rw [dif_pos hlt, ih (cur + 1) hk, List.range_succ_eq_map]
    simp only [List.map_cons, List.map_map]
    refine congrArg₂ (· :: ·) (by simp) ?_
    apply List.map_congr_left
    intro i _
    simp only [Function.comp]
    congr 1
    push_cast
    ring

/-- C7: Time-Window Slicer contract.  For every start instant, end instant
and pad (with `start ≤ end` and `0 ≤ pad`, the regime in which the JS
`while` loop over middle days terminates): if the padded start and padded
end fall on the same local calendar date the slicer emits exactly one
slice spanning the padded range on that date; otherwise it emits, in
order, a first slice from the padded start time to `23:59` on the padded
start's date, one full-day `00:00`–`23:59` slice for each intermediate
calendar date, and a last slice from `00:00` to the padded end time on the
padded end's date. -/
theorem scheduleSlicesForWindow_spec (start endT padMin : Int)
    (_hpad : 0 ≤ padMin) (_hse : start ≤ endT) :
    scheduleSlicesForWindow start endT padMin = slicerSpec start endT padMin := by
  unfold scheduleSlicesForWindow slicerSpec
  have hsp : addMinutes start (-padMin) = start - padMin * msPerMin := by
    unfold addMinutes; ring
  have hep : addMinutes endT padMin = endT + padMin * msPerMin := rfl
  rw [hsp, hep]
  by_cases hd :
      ymdLocalDay (start - padMin * msPerMin) = ymdLocalDay (endT + padMin * msPerMin)
  · simp [hd]
  · simp only [if_neg hd]
    rw [middleDaySlices_eq_range
      (ymdLocalDay (endT + padMin * msPerMin))
      (ymdLocalDay (endT + padMin * msPerMin) - ymdLocalDay (start - padMin * msPerMin) - 1).toNat
      (ymdLocalDay (start - padMin * msPerMin) + 1) (by omega)]
    simp [List.cons_append]

/-- Witness for `scheduleSlicesForWindow_spec`: a concrete window crossing
one midnight (start 23:10, end 02:10 the next day, pad 30). -/
theorem scheduleSlicesForWindow_spec_witness :
    (0 : Int) ≤ 30 ∧ (83400000 : Int) ≤ 94200000 ∧
      scheduleSlicesForWindow 83400000 94200000 30 = slicerSpec 83400000 94200000 30 :=
  ⟨by decide, by decide, scheduleSlicesForWindow_spec 83400000 94200000 30 (by decide) (by decide)⟩

/-! ## Simulated-"now" override parsing (`parseStartOverride`,
`getNowInfo`, `getNow`; planner.js lines 325–347, 400–408) -/

/-- Proleptic-Gregorian day count from civil year/month/day (month
`1..12`; `d` may be out of range and simply offsets, exactly as the JS
`Date` constructor normalises an out-of-range day-of-month).  Day `0` is
1970-01-01, matching the epoch of the millisecond timestamps. -/
def daysFromCivil (y m d : Int) : Int :=
  let y' := if m ≤ 2 then y - 1 else y
  let era := y'.fdiv 400
  let yoe := y' - era * 400
  let mp := (m + 9).emod 12
  let doy := (153 * mp + 2).fdiv 5
  let doe := yoe * 365 + yoe.fdiv 4 - yoe.fdiv 100 + doy
  era * 146097 + doe - 719468 + (d - 1)

/-- The local instant (milliseconds) built by
`new Date(y, m - 1, d, h, mi, 0, 0)`: months out of `1..12` roll over into
adjacent years, days out of range roll over into adjacent months, exactly
as JS `Date` normalises them. -/
def civilMs (y m d h mi : Int) : Int :=
  let ym := y * 12 + (m - 1)
  let y' := ym.fdiv 12
  let m' := ym.emod 12 + 1
  (daysFromCivil y' m' d * 1440 + h * 60 + mi) * msPerMin

/-- JS `String.prototype.trim`: drop leading and trailing whitespace.
(`String.trim` itself is not kernel-reducible, so the same computation is
written structurally on the character list.) -/
def jsTrim (s : String) : String :=
  ⟨((s.data.dropWhile Char.isWhitespace).reverse.dropWhile Char.isWhitespace).reverse⟩

/-- Two ASCII digit characters to a number (`\d\d` in the JS regex). -/
def digits2 (a b : Char) : Option Nat :=
  if a.isDigit ∧ b.isDigit then
    some ((a.toNat - 48) * 10 + (b.toNat - 48))
  else none

/-- `t.replace(" ", "T")` in JS replaces only the first occurrence. -/
def replaceFirstSpaceWithT : List Char → List Char
  | [] => []
  | c :: cs => if c = ' ' then 'T' :: cs else c :: replaceFirstSpaceWithT cs

/-- The strict regex match
`^(\d{4})-(\d{2})-(\d{2})T(\d{2}):(\d{2})$` returning the five captured
numbers. -/
def matchYMDHM (cs : List Char) : Option (Nat × Nat × Nat × Nat × Nat) :=
  match cs with
  | [y1, y2, y3, y4, s1, m1, m2, s2, d1, d2, s3, h1, h2, s4, n1, n2] =>
    if s1 = '-' ∧ s2 = '-' ∧ s3 = 'T' ∧ s4 = ':' ∧
        y1.isDigit ∧ y2.isDigit then
      match digits2 y1 y2, digits2 y3 y4, digits2 m1 m2,
          digits2 d1 d2, digits2 h1 h2, digits2 n1 n2 with
      | some ya, some yb, some mm, some dd, some hh, some mi =>
        some (ya * 100 + yb, mm, dd, hh, mi)
      | _, _, _, _, _, _ => none
    else none
  | _ => none

/-- `parseStartOverride(s)` (planner.js lines 325–338): strict
`YYYY-MM-DD(T| )HH:MM` parse of the trimmed string, `null` on failure.
The constructed `Date` from in-range numeric components is never `NaN`, so
the final `isNaN` guard never fires. -/
def parseStartOverride (s : String) : Option Int :=
  if s = "" then none
  else
    let t := jsTrim s
    if t = "" then none
    else
      match matchYMDHM (replaceFirstSpaceWithT t.data) with
      | none => none
      | some (yy, mm, dd, hh, mi) =>
        some (civilMs (yy : Int) (mm : Int) (dd : Int) (hh : Int) (mi : Int))

/-- Result of `getNowInfo`. -/
structure NowInfo where
  now : Int
  overrideOk : Bool
deriving DecidableEq, Repr

/-- The externally-owned pieces of `state` that the planner core reads.
`realNow` models the wall clock (`new Date()`), fixed for one computation. -/
structure PlannerState where
  startOverride : String
  layoverMin : Int
  homeStop : String
deriving DecidableEq, Repr

/-- `getNowInfo(state)` (planner.js lines 340–347). -/
def getNowInfo (state : PlannerState) (realNow : Int) : NowInfo :=
  let raw := jsTrim state.startOverride
  let parsed := parseStartOverride raw
  if raw ≠ "" ∧ parsed = none then
    ⟨floorToMinute realNow, false⟩
  else
    ⟨floorToMinute (parsed.getD realNow), true⟩

/-- `getNow(state)` (planner.js lines 406–408). -/
def getNow (state : PlannerState) (realNow : Int) : Int :=
  floorToMinute ((parseStartOverride (jsTrim state.startOverride)).getD realNow)

/-! ## A stable comparator sort (JS `Array.prototype.sort` is stable;
a structural insertion sort produces the identical stable order and, unlike
a well-founded-recursion merge sort, evaluates inside the kernel) -/

/-- Insert `x` before the first element `y` with `le x y` (equal elements
keep their original relative order, as JS's stable sort does). -/
def stableInsert {α : Type} (le : α → α → Bool) (x : α) : List α → List α
  | [] => [x]
  | y :: ys => if le x y then x :: y :: ys else y :: stableInsert le x ys

/-- Stable sort by a boolean comparator. -/
def stableSort {α : Type} (le : α → α → Bool) : List α → List α
  | [] => []
  | x :: xs => stableInsert le x (stableSort le xs)

theorem stableInsert_perm {α : Type} (le : α → α → Bool) (x : α) :
    ∀ l : List α, (stableInsert le x l).Perm (x :: l) := by
  intro l
  induction l with
  | nil => exact List.Perm.refl _
  | cons y ys ih =>
    unfold stableInsert
    by_cases h : le x y = true
    · rw [if_pos h]
    · rw [if_neg h]
      exact List.Perm.trans (List.Perm.cons y ih) (List.Perm.swap x y ys)

theorem stableSort_perm {α : Type} (le : α → α → Bool) :
    ∀ l : List α, (stableSort le l).Perm l := by
  intro l
  induction l with
  | nil => exact List.Perm.refl _
  | cons x xs ih =>
    unfold stableSort
    exact List.Perm.trans (stableInsert_perm le x (stableSort le xs))
      (List.Perm.cons x ih)

/-! ## Display cells and leg data (planner.js / mbta.js) -/

/-- The text of a display cell: `"—"`, `""`, or a `fmtHHMM`-formatted
instant (represented by the instant itself; `fmtHHMM` never produces `"—"`
or `""`). -/
inductive CellText where
  | dash
  | empty
  | time (t : Int)
deriving DecidableEq, Repr

/-- `timeCell(text, pred, schedText)` (planner.js line 432). -/
structure TimeCell where
  text : CellText
  pred : Bool
  schedText : CellText
deriving DecidableEq, Repr

/-- The `"—"` cell `timeCell("—", false, "")`. -/
def dashCell : TimeCell := ⟨CellText.dash, false, CellText.empty⟩

/-- The blank cell `timeCell("", false, "")`. -/
def blankCell : TimeCell := ⟨CellText.empty, false, CellText.empty⟩

/-- `x ? fmtHHMM(x) : ""` on an optional scheduled instant. -/
def schedCT : Option Int → CellText
  | none => CellText.empty
  | some t => CellText.time t

/-- A merged leg pair as produced by `mergePairsPartial`:
`{tripId, fromT, toT, fromPred, toPred, schedFromT, schedToT}`. -/
structure LegPair where
  tripId : String
  fromT : Int
  toT : Int
  fromPred : Bool
  toPred : Bool
  schedFromT : Option Int
  schedToT : Option Int
deriving DecidableEq, Repr

instance : Inhabited LegPair := ⟨⟨"", 0, 0, false, false, none, none⟩⟩

/-- A scheduled pair `{tripId, fromT, toT}` as fetched from the schedule
endpoint (input to the merger). -/
structure SchedPair where
  tripId : String
  fromT : Int
  toT : Int
deriving DecidableEq, Repr

/-- A merged bus trip as produced by `mergeBusByTripId` (mbta.js lines
724–766): departure at the middle (Harvard) stop, displayed arrival, and
optional home-leg arrival, each with its predicted flag and scheduled
fallback. -/
structure BusTrip where
  tripId : String
  dep : Int
  depPred : Bool
  schedDep : Option Int
  arrDisp : Option Int
  arrPred : Bool
  schedArr : Option Int
  home : Option Int
  homePred : Bool
  schedHome : Option Int
deriving DecidableEq, Repr

instance : Inhabited BusTrip := ⟨⟨"", 0, false, none, none, false, none, none, false, none⟩⟩

/-- A group key: the sentinel `"NONE|__NONE__"`, or the composite string
`` `${b.dep.toISOString()}|${b.tripId}` `` (represented by its two
components; `toISOString` is injective on instants, so the string and the
pair determine each other). -/
inductive GKey where
  | NONE
  | bus (dep : Int) (tripId : String)
deriving DecidableEq, Repr

/-- One assignment produced for an in-window upstream (Red) pair
(planner.js lines 776–796). -/
structure Assignment where
  gkey : GKey
  arlington : TimeCell
  redParkDate : Int
  redParkPred : Bool
  redParkSched : Option Int
  waitMin : Option Int
deriving DecidableEq, Repr

instance : Inhabited Assignment :=
  ⟨⟨GKey.NONE, dashCell, 0, false, none, none⟩⟩

/-! ## Binary-search helpers (planner.js lines 446–468) -/

/-- The loop of `upperBoundByToT(arr, cutoffToT)`: binary search for the
first index whose `toT` exceeds the cutoff.  `arr[mid]` is modelled with
`List.getD` (the search keeps `mid < hi ≤ arr.length`). -/
def upperBoundByToTAux (arr : List LegPair) (cutoffToT : Int) (lo hi : Nat) : Nat :=
  if h : lo < hi then
    let mid := (lo + hi) / 2
    if (arr.getD mid default).toT ≤ cutoffToT then
      upperBoundByToTAux arr cutoffToT (mid + 1) hi
    else
      upperBoundByToTAux arr cutoffToT lo mid
  else lo
termination_by hi - lo
decreasing_by
  · omega
  · omega

/-- `upperBoundByToT(arr, cutoffToT)` (planner.js lines 447–456). -/
def upperBoundByToT (arr : List LegPair) (cutoffToT : Int) : Nat :=
  upperBoundByToTAux arr cutoffToT 0 arr.length

/-- The loop of `lowerBoundByDep(arr, ready)`: binary search for the first
index whose `dep` is not below `ready`. -/
def lowerBoundByDepAux (arr : List BusTrip) (ready : Int) (lo hi : Nat) : Nat :=
  if h : lo < hi then
    let mid := (lo + hi) / 2
    if (arr.getD mid default).dep < ready then
      lowerBoundByDepAux arr ready (mid + 1) hi
    else
      lowerBoundByDepAux arr ready lo mid
  else lo
termination_by hi - lo
decreasing_by
  · omega
  · omega

/-- `lowerBoundByDep(arr, ready)` (planner.js lines 459–468): the first
bus whose departure is at or after `ready`, or `null`. -/
def lowerBoundByDep (arr : List BusTrip) (ready : Int) : Option BusTrip :=
  let lo := lowerBoundByDepAux arr ready 0 arr.length
  if lo < arr.length then some (arr.getD lo default) else none

/-! ### Correctness of the binary searches over sorted inputs -/

/-- Sortedness by departure, in `getD` form. -/
theorem sorted_dep_getD {arr : List BusTrip}
    (hs : arr.Pairwise (fun x y => x.dep ≤ y.dep)) :
    ∀ i j : Nat, i ≤ j → j < arr.length →
      (arr.getD i default).dep ≤ (arr.getD j default).dep := by
  intro i j hij hj
  rcases Nat.eq_or_lt_of_le hij with h | h
  · subst h; exact le_refl _
  · rw [List.getD_eq_getElem arr default (lt_trans h hj),
      List.getD_eq_getElem arr default hj]
    exact List.pairwise_iff_getElem.mp hs i j (lt_trans h hj) hj h

/-- Sortedness by Park arrival, in `getD` form. -/
theorem sorted_toT_getD {arr : List LegPair}
    (hs : arr.Pairwise (fun x y => x.toT ≤ y.toT)) :
    ∀ i j : Nat, i ≤ j → j < arr.length →
      (arr.getD i default).toT ≤ (arr.getD j default).toT := by
  intro i j hij hj
  rcases Nat.eq_or_lt_of_le hij with h | h
  · subst h; exact le_refl _
  · rw [List.getD_eq_getElem arr default (lt_trans h hj),
      List.getD_eq_getElem arr default hj]
    exact List.pairwise_iff_getElem.mp hs i j (lt_trans h hj) hj h

/-- Invariant of the `lowerBoundByDep` loop: on a `dep`-sorted list, the
result splits `[lo, hi)` into departures before `ready` (left) and at or
after `ready` (right). -/
theorem lowerBoundByDepAux_spec (arr : List BusTrip) (ready : Int)
    (hs : arr.Pairwise (fun x y => x.dep ≤ y.dep)) :
    ∀ (n lo hi : Nat), hi - lo ≤ n → lo ≤ hi → hi ≤ arr.length →
      lo ≤ lowerBoundByDepAux arr ready lo hi ∧
      lowerBoundByDepAux arr ready lo hi ≤ hi ∧
      (∀ j, lo ≤ j → j < lowerBoundByDepAux arr ready lo hi →
        (arr.getD j default).dep < ready) ∧
      (∀ j, lowerBoundByDepAux arr ready lo hi ≤ j → j < hi →
        ¬ (arr.getD j default).dep < ready) := by
  intro n
  induction n with
  | zero =>
    intro lo hi hn hlohi hhi
    rw [lowerBoundByDepAux.eq_def]
    have : ¬ lo < hi := by omega
    rw [dif_neg this]
    exact ⟨le_refl _, by omega, by omega, by omega⟩
  | succ k ih =>
    intro lo hi hn hlohi hhi
    rw [lowerBoundByDepAux.eq_def]
    by_cases hlh : lo < hi
    · rw [dif_pos hlh]
      simp only []
      by_cases ht : (arr.getD ((lo + hi) / 2) default).dep < ready
      · rw [if_pos ht]
        have hrec := ih ((lo + hi) / 2 + 1) hi (by omega) (by omega) hhi
        obtain ⟨h1, h2, h3, h4⟩ := hrec
        refine ⟨by omega, h2, ?_, h4⟩
        intro j hj1 hj2
        by_cases hjm : j ≤ (lo + hi) / 2
        · exact lt_of_le_of_lt (sorted_dep_getD hs j ((lo + hi) / 2) hjm (by omega)) ht
        · exact h3 j (by omega) hj2
      · rw [if_neg ht]
        have hrec := ih lo ((lo + hi) / 2) (by omega) (by omega) (by omega)
        obtain ⟨h1, h2, h3, h4⟩ := hrec
        refine ⟨h1, by omega, h3, ?_⟩
        intro j hj1 hj2
        by_cases hjm : j < (lo + hi) / 2
        · exact h4 j hj1 hjm
        · intro hcon
          exact ht (lt_of_le_of_lt
            (sorted_dep_getD hs ((lo + hi) / 2) j (by omega) (by omega)) hcon)
    · rw [dif_neg hlh]
      exact ⟨le_refl _, by omega, by omega, by omega⟩

/-- `find?` returns the element at index `i` when everything before `i`
fails the predicate and index `i` satisfies it. -/
theorem find?_eq_getD {α : Type} [Inhabited α] (p : α → Bool) :
    ∀ (l : List α) (i : Nat), i < l.length →
      (∀ j, j < i → ¬ p (l.getD j default)) → p (l.getD i default) →
      l.find? p = some (l.getD i default) := by
  intro l
  induction l with
  | nil => intro i hi; simp at hi
  | cons a t iht =>
    intro i hi hbefore hp
    cases i with
    | zero =>
      rw [List.getD_cons_zero] at hp
      rw [List.find?_cons_of_pos t hp, List.getD_cons_zero]
    | succ k =>
      have ha : ¬ p a := by
        have := hbefore 0 (Nat.succ_pos k)
        rwa [List.getD_cons_zero] at this
      rw [List.find?_cons_of_neg t ha, List.getD_cons_succ]
      apply iht k (by simpa using hi)
      · intro j hj
        have := hbefore (j + 1) (by omega)
        rwa [List.getD_cons_succ] at this
      · rwa [List.getD_cons_succ] at hp

/-- On a `dep`-sorted bus list, `lowerBoundByDep` is exactly the leftmost
entry whose departure is at or after `ready`. -/
theorem lowerBoundByDep_eq_find (arr : List BusTrip) (ready : Int)
    (hs : arr.Pairwise (fun x y => x.dep ≤ y.dep)) :
    lowerBoundByDep arr ready = arr.find? (fun b => decide (ready ≤ b.dep)) := by
  unfold lowerBoundByDep
  have hspec := lowerBoundByDepAux_spec arr ready hs arr.length 0 arr.length
    (by omega) (by omega) (le_refl _)
  obtain ⟨h1, h2, h3, h4⟩ := hspec
  by_cases hlt : lowerBoundByDepAux arr ready 0 arr.length < arr.length
  · rw [if_pos hlt]
    symm
    apply find?_eq_getD
    · exact hlt
    · intro j hj
      simp only [decide_eq_true_eq, not_le]
      exact h3 j (Nat.zero_le j) hj
    · simp only [decide_eq_true_eq]
      have := h4 (lowerBoundByDepAux arr ready 0 arr.length) (le_refl _) hlt
      omega
  · rw [if_neg hlt]
    symm
    rw [List.find?_eq_none]
    intro x hx
    obtain ⟨i, hi, hix⟩ := List.mem_iff_getElem.mp hx
    have := h3 i (Nat.zero_le i) (by omega)
    rw [List.getD_eq_getElem arr default hi, hix] at this
    simp only [decide_eq_true_eq, not_le]
    exact this

/-- Invariant of the `upperBoundByToT` loop: on a `toT`-sorted list, the
result splits `[lo, hi)` into arrivals at or before the cutoff (left) and
after it (right). -/
theorem upperBoundByToTAux_spec (arr : List LegPair) (cutoff : Int)
    (hs : arr.Pairwise (fun x y => x.toT ≤ y.toT)) :
    ∀ (n lo hi : Nat), hi - lo ≤ n → lo ≤ hi → hi ≤ arr.length →
      lo ≤ upperBoundByToTAux arr cutoff lo hi ∧
      upperBoundByToTAux arr cutoff lo hi ≤ hi ∧
      (∀ j, lo ≤ j → j < upperBoundByToTAux arr cutoff lo hi →
        (arr.getD j default).toT ≤ cutoff) ∧
      (∀ j, upperBoundByToTAux arr cutoff lo hi ≤ j → j < hi →
        ¬ (arr.getD j default).toT ≤ cutoff) := by
  intro n
  induction n with
  | zero =>
    intro lo hi hn hlohi hhi
    rw [upperBoundByToTAux.eq_def]
    have : ¬ lo < hi := by omega
    rw [dif_neg this]
    exact ⟨le_refl _, by omega, by omega, by omega⟩
  | succ k ih =>
    intro lo hi hn hlohi hhi
    rw [upperBoundByToTAux.eq_def]
    by_cases hlh : lo < hi
    · rw [dif_pos hlh]
      simp only []
      by_cases ht : (arr.getD ((lo + hi) / 2) default).toT ≤ cutoff
      · rw [if_pos ht]
        have hrec := ih ((lo + hi) / 2 + 1) hi (by omega) (by omega) hhi
        obtain ⟨h1, h2, h3, h4⟩ := hrec
        refine ⟨by omega, h2, ?_, h4⟩
        intro j hj1 hj2
        by_cases hjm : j ≤ (lo + hi) / 2
        · exact le_trans (sorted_toT_getD hs j ((lo + hi) / 2) hjm (by omega)) ht
        · exact h3 j (by omega) hj2
      · rw [if_neg ht]
        have hrec := ih lo ((lo + hi) / 2) (by omega) (by omega) (by omega)
        obtain ⟨h1, h2, h3, h4⟩ := hrec
        refine ⟨h1, by omega, h3, ?_⟩
        intro j hj1 hj2
        by_cases hjm : j < (lo + hi) / 2
        · exact h4 j hj1 hjm
        · intro hcon
          exact ht (le_trans
            (sorted_toT_getD hs ((lo + hi) / 2) j (by omega) (by omega)) hcon)
    · rw [dif_neg hlh]
      exact ⟨le_refl _, by omega, by omega, by omega⟩

/-! ## Connection assignment (planner.js lines 748–797) -/

/-- The body of the `for (const rp of redPairs)` loop (planner.js lines
752–797): build the Arlington feeder cell by backward search over
`greenPairs` and pick the connecting bus by forward search over
`busSorted`. -/
def assignOne (greenPairs : List LegPair) (busSorted : List BusTrip)
    (start bufferMs : Int) (rp : LegPair) : Assignment :=
  let redPark := rp.fromT
  let redHarvArr := rp.toT
  let arlington :=
    if greenPairs.length ≠ 0 then
      let cutoff := redPark - msPerMin
      let ub := upperBoundByToT greenPairs cutoff
      if 1 ≤ ub then
        let gp := greenPairs.getD (ub - 1) default
        let shown :=
          if start ≤ gp.fromT then CellText.time gp.fromT else CellText.dash
        let pred := gp.fromPred && decide (shown ≠ CellText.dash)
        let sched := schedCT gp.schedFromT
        TimeCell.mk shown pred sched
      else dashCell
    else dashCell
  match lowerBoundByDep busSorted (redHarvArr + bufferMs) with
  | none =>
    ⟨GKey.NONE, arlington, redPark, rp.fromPred, rp.schedFromT, none⟩
  | some b =>
    ⟨GKey.bus b.dep b.tripId, arlington, redPark, rp.fromPred, rp.schedFromT,
      some ((b.dep - redHarvArr).fdiv msPerMin)⟩

/-- C1: forward (bus-leg) search correctness.  For an upstream pair `rp`,
with the bus list sorted by middle-stop departure: the assigned bus trip
is the leftmost entry whose departure is at or after
`rp.toT + max(0, layoverMin)` minutes (`List.find?` of that predicate);
its recorded wait is `⌊(busDep − rp.toT) / 1 min⌋ ≥ 0` and its departure
respects the buffer; if no such bus exists, the assignment carries the
`NONE` sentinel key and a `null` wait. -/
theorem forwardSearchCorrect (greenPairs : List LegPair) (busSorted : List BusTrip)
    (hs : busSorted.Pairwise (fun x y => x.dep ≤ y.dep))
    (start layoverMin : Int) (rp : LegPair) :
    (∀ b : BusTrip,
      busSorted.find? (fun b => decide (rp.toT + max 0 layoverMin * msPerMin ≤ b.dep))
          = some b →
        (assignOne greenPairs busSorted start (max 0 layoverMin * msPerMin) rp).gkey
            = GKey.bus b.dep b.tripId ∧
        (assignOne greenPairs busSorted start (max 0 layoverMin * msPerMin) rp).waitMin
            = some ((b.dep - rp.toT).fdiv msPerMin) ∧
        0 ≤ (b.dep - rp.toT).fdiv msPerMin ∧
        rp.toT + max 0 layoverMin * msPerMin ≤ b.dep) ∧
    (busSorted.find? (fun b => decide (rp.toT + max 0 layoverMin * msPerMin ≤ b.dep))
          = none →
        (assignOne greenPairs busSorted start (max 0 layoverMin * msPerMin) rp).gkey
            = GKey.NONE ∧
        (assignOne greenPairs busSorted start (max 0 layoverMin * msPerMin) rp).waitMin
            = none) := by
  have hrw : lowerBoundByDep busSorted (rp.toT + max 0 layoverMin * msPerMin)
      = busSorted.find? (fun b => decide (rp.toT + max 0 layoverMin * msPerMin ≤ b.dep)) :=
    lowerBoundByDep_eq_find busSorted _ hs
  constructor
  · intro b hfind
    have hdep : rp.toT + max 0 layoverMin * msPerMin ≤ b.dep := by
      have := List.find?_some hfind
      simpa using this
    have hwait : 0 ≤ (b.dep - rp.toT).fdiv msPerMin := by
      apply Int.fdiv_nonneg
      · have hbuf : 0 ≤ max 0 layoverMin * msPerMin := by
          apply mul_nonneg (le_max_left 0 layoverMin)
          unfold msPerMin; omega
        omega
      · unfold msPerMin; omega
    simp only [assignOne]
    rw [hrw, hfind]
    exact ⟨rfl, rfl, hwait, hdep⟩
  · intro hfind
    simp only [assignOne]
    rw [hrw, hfind]
    exact ⟨rfl, rfl⟩

/-- Witness for `forwardSearchCorrect`: the spec's §8 scenario (upstream
destination 17:00, buffer 1 min, buses departing 17:05 and 17:20 — in ms
from an arbitrary local midnight); the 17:05 bus is found with wait 5. -/
theorem forwardSearchCorrect_witness :
    ([⟨"b1", 61500000, false, none, none, false, none, none, false, none⟩,
      ⟨"b2", 62400000, false, none, none, false, none, none, false, none⟩]
        : List BusTrip).Pairwise (fun x y => x.dep ≤ y.dep) ∧
    (assignOne [] [⟨"b1", 61500000, false, none, none, false, none, none, false, none⟩,
      ⟨"b2", 62400000, false, none, none, false, none, none, false, none⟩]
      0 (max 0 1 * msPerMin)
      ⟨"r1", 60600000, 61200000, false, false, none, none⟩).waitMin = some 5 := by
  refine ⟨by decide, ?_⟩
  have h := (forwardSearchCorrect []
    [⟨"b1", 61500000, false, none, none, false, none, none, false, none⟩,
     ⟨"b2", 62400000, false, none, none, false, none, none, false, none⟩]
    (by decide) 0 1 ⟨"r1", 60600000, 61200000, false, false, none, none⟩).1
    ⟨"b1", 61500000, false, none, none, false, none, none, false, none⟩ (by decide)
  rw [h.2.1]
  decide

/-- C2: backward (feeder-leg) search correctness.  With the middle-leg
(Green) pairs sorted by destination (Park-arrival) instant and cutoff
`rp.fromT − 1 min`: if no pair arrives by the cutoff the Arlington cell is
the dash placeholder; otherwise the chosen pair arrives by the cutoff, no
candidate arrives strictly between it and the cutoff (rightmost match),
and its origin time is displayed exactly when that origin is at or after
the window start — otherwise the dash placeholder is shown. -/
theorem backwardSearchCorrect (greenPairs : List LegPair) (busSorted : List BusTrip)
    (hs : greenPairs.Pairwise (fun x y => x.toT ≤ y.toT))
    (start bufferMs : Int) (rp : LegPair) :
    ((∀ q ∈ greenPairs, ¬ q.toT ≤ rp.fromT - msPerMin) →
      (assignOne greenPairs busSorted start bufferMs rp).arlington = dashCell) ∧
    (∀ gp0 ∈ greenPairs, gp0.toT ≤ rp.fromT - msPerMin →
      ∃ c ∈ greenPairs, c.toT ≤ rp.fromT - msPerMin ∧
        (∀ q ∈ greenPairs, ¬ (c.toT < q.toT ∧ q.toT ≤ rp.fromT - msPerMin)) ∧
        (assignOne greenPairs busSorted start bufferMs rp).arlington =
          ⟨if start ≤ c.fromT then CellText.time c.fromT else CellText.dash,
            c.fromPred && decide (start ≤ c.fromT), schedCT c.schedFromT⟩) := by
  have hspec := upperBoundByToTAux_spec greenPairs (rp.fromT - msPerMin) hs
    greenPairs.length 0 greenPairs.length (by omega) (by omega) (le_refl _)
  obtain ⟨hub0, hubLen, hLeft, hRight⟩ := hspec
  have hubAux : upperBoundByToT greenPairs (rp.fromT - msPerMin)
      = upperBoundByToTAux greenPairs (rp.fromT - msPerMin) 0 greenPairs.length := rfl
  constructor
  · intro hnone
    by_cases hlen : greenPairs.length ≠ 0
    · have hub : ¬ 1 ≤ upperBoundByToT greenPairs (rp.fromT - msPerMin) := by
        intro h1
        rw [hubAux] at h1
        have := hLeft 0 (le_refl _) (by omega)
        have hmem : greenPairs.getD 0 default ∈ greenPairs := by
          rw [List.getD_eq_getElem greenPairs default (by omega)]
          exact List.getElem_mem _
        exact hnone _ hmem this
      simp only [assignOne]
      rw [if_pos hlen, if_neg hub]
      cases lowerBoundByDep busSorted (rp.toT + bufferMs) <;> rfl
    · push_neg at hlen
      simp only [assignOne]
      rw [if_neg (by omega)]
      cases lowerBoundByDep busSorted (rp.toT + bufferMs) <;> rfl
  · intro gp0 hgp0 hq
    obtain ⟨i, hi, hieq⟩ := List.mem_iff_getElem.mp hgp0
    have hub1 : 1 ≤ upperBoundByToT greenPairs (rp.fromT - msPerMin) := by
      rw [hubAux]
      by_contra hub
      have := hRight i (by omega) hi
      rw [List.getD_eq_getElem greenPairs default hi, hieq] at this
      exact this hq
    have hubLen' : upperBoundByToT greenPairs (rp.fromT - msPerMin)
        ≤ greenPairs.length := by rw [hubAux]; exact hubLen
    set ub := upperBoundByToT greenPairs (rp.fromT - msPerMin) with hubdef
    have hcmem : greenPairs.getD (ub - 1) default ∈ greenPairs := by
      rw [List.getD_eq_getElem greenPairs default (by omega)]
      exact List.getElem_mem _
    refine ⟨greenPairs.getD (ub - 1) default, hcmem, ?_, ?_, ?_⟩
    · apply hLeft (ub - 1) (by omega)
      rw [← hubAux]
      omega
    · intro q hqmem hbetween
      obtain ⟨j, hj, hjeq⟩ := List.mem_iff_getElem.mp hqmem
      by_cases hjub : j < ub
      · have := sorted_toT_getD hs j (ub - 1) (by omega) (by omega)
        rw [List.getD_eq_getElem greenPairs default hj, hjeq] at this
        omega
      · have := hRight j (by rw [← hubAux]; omega) hj
        rw [List.getD_eq_getElem greenPairs default hj, hjeq] at this
        exact this hbetween.2
    · have hlen : greenPairs.length ≠ 0 := by omega
      simp only [assignOne]
      rw [if_pos hlen, ← hubdef, if_pos hub1]
      cases lowerBoundByDep busSorted (rp.toT + bufferMs) <;>
        · simp only []
          by_cases hstart : start ≤ (greenPairs.getD (ub - 1) default).fromT
          · rw [if_pos hstart]
            rw [List.getD_eq_getElem?_getD] at hstart
            simp [hstart]
          · rw [if_neg hstart]
            rw [List.getD_eq_getElem?_getD] at hstart
            simp [hstart]

/-- Witness for `backwardSearchCorrect`: one green pair arriving at Park
well before the Red origin; it is chosen and displayed. -/
theorem backwardSearchCorrect_witness :
    ([⟨"g1", 60000000, 60300000, false, false, none, none⟩]
        : List LegPair).Pairwise (fun x y => x.toT ≤ y.toT) ∧
    (assignOne [⟨"g1", 60000000, 60300000, false, false, none, none⟩] []
        0 0 ⟨"r1", 60600000, 61200000, false, false, none, none⟩).arlington =
      ⟨CellText.time 60000000, false, CellText.empty⟩ := by
  refine ⟨by decide, ?_⟩
  obtain ⟨c, hc, hcut, hrt, hcell⟩ :=
    (backwardSearchCorrect [⟨"g1", 60000000, 60300000, false, false, none, none⟩] []
      (by decide) 0 0 ⟨"r1", 60600000, 61200000, false, false, none, none⟩).2
      ⟨"g1", 60000000, 60300000, false, false, none, none⟩ (by decide) (by decide)
    
  rw [hcell]
  have : c = ⟨"g1", 60000000, 60300000, false, false, none, none⟩ := by
    simpa using hc
  subst this
  decide

/-! ## Groups and best-marking (planner.js lines 470–481, 799–863) -/

/-- `g.meta` as attached in `buildGroupsForWindow` (planner.js lines
817–850). -/
structure GroupMeta where
  tripId : String
  dep : Option Int
  busArr : Option Int
  busArrPred : Bool
  busArrSched : Option Int
  home : Option Int
  homePred : Bool
  homeSched : Option Int
  parkBestDate : Option Int
deriving DecidableEq, Repr

/-- A group of assignments bucketed by connecting-bus key. -/
structure PlanGroup where
  key : GKey
  meta : GroupMeta
  items : List Assignment
  best : Bool
deriving DecidableEq, Repr

/-- The eligibility test of `markBestGroups`:
`g.meta.tripId !== "__NONE__" && (g.items?.length || 0) > 0`. -/
def usableGroup (g : PlanGroup) : Bool :=
  decide (g.meta.tripId ≠ "__NONE__") && decide (0 < g.items.length)

/-- `markBestGroups(groupsOrdered)` (planner.js lines 471–481): mark every
usable group `best` except the one whose key matches the last usable
group's key. -/
def markBestGroups (groupsOrdered : List PlanGroup) : List PlanGroup :=
  let usable := groupsOrdered.filter usableGroup
  let lastKey : Option GKey := usable.getLast?.map (fun g => g.key)
  groupsOrdered.map (fun g =>
    { g with
      best := usableGroup g &&
        (match lastKey with
          | some k => decide (g.key ≠ k)
          | none => true) })

theorem usableGroup_setBest (g : PlanGroup) (b : Bool) :
    usableGroup { g with best := b } = usableGroup g := rfl

/-- A key that occurs (with `Nodup` keys) is matched by exactly one
group. -/
theorem countP_key_unique (k : GKey) :
    ∀ (u : List PlanGroup), (u.map (fun g => g.key)).Nodup →
      k ∈ u.map (fun g => g.key) →
      u.countP (fun x => decide (x.key = k)) = 1 := by
  intro u
  induction u with
  | nil => intro _ hmem; simp at hmem
  | cons a t ih =>
    intro hnodup hmem
    simp only [List.map_cons, List.nodup_cons] at hnodup
    obtain ⟨hka, ht⟩ := hnodup
    rw [List.countP_cons]
    simp only [List.map_cons, List.mem_cons] at hmem
    rcases hmem with hmem | hmem
    · subst hmem
      rw [List.countP_eq_zero.mpr, if_pos (by simp)]
      intro x hx
      simp only [decide_eq_true_eq]
      intro hxk
      exact hka (by rw [← hxk]; exact List.mem_map_of_mem _ hx)
    · have hne : ¬ a.key = k := by
        intro he
        rw [he] at hka
        exact hka hmem
      rw [ih ht hmem, if_neg (by simpa using hne)]

/-- C3: best-group marking.  Over a group list with pairwise-distinct keys
(as produced by the key-indexed grouping map): a marked-best group is
always eligible; the number of best-marked groups is the number of
eligible groups minus one (so `N ≥ 1` eligible groups give exactly `N − 1`
best, and `N = 0` gives zero best); and the last eligible group is never
marked best. -/
theorem markBestGroups_spec (l : List PlanGroup)
    (hnodup : (l.map (fun g => g.key)).Nodup) :
    (∀ g ∈ markBestGroups l, g.best = true → usableGroup g = true) ∧
    ((markBestGroups l).countP (fun g => g.best) =
      (markBestGroups l).countP usableGroup - 1) ∧
    (∀ g : PlanGroup, ((markBestGroups l).filter usableGroup).getLast? = some g →
      g.best = false) := by
  rcases hul : (l.filter usableGroup).getLast? with _ | glast
  · -- no usable group at all
    have hunil : l.filter usableGroup = [] := by
      cases hl : l.filter usableGroup with
      | nil => rfl
      | cons a t =>
        rw [hl, List.getLast?_eq_getLast _ (by simp)] at hul
        simp at hul
    have hnouse : ∀ g ∈ l, usableGroup g = false := by
      intro g hg
      by_contra hc
      have hgm : g ∈ l.filter usableGroup :=
        List.mem_filter.mpr ⟨hg, by simpa using hc⟩
      rw [hunil] at hgm
      simp at hgm
    have hmark : markBestGroups l =
        l.map (fun g => { g with best := usableGroup g && true }) := by
      simp only [markBestGroups]
      rw [hul]
      rfl
    refine ⟨?_, ?_, ?_⟩
    · intro g hg hb
      rw [hmark] at hg
      obtain ⟨g0, hg0l, hg0⟩ := List.mem_map.mp hg
      rw [← hg0] at hb
      simp only [Bool.and_true] at hb
      rw [hnouse g0 hg0l] at hb
      exact absurd hb (by simp)
    · rw [hmark, List.countP_map, List.countP_map]
      have h1 : List.countP ((fun g => g.best) ∘
          (fun g => { g with best := usableGroup g && true })) l = 0 := by
        rw [List.countP_eq_zero]
        intro g hg
        simp only [Function.comp, Bool.and_true]
        rw [hnouse g hg]
        simp
      have h2 : List.countP (usableGroup ∘
          (fun g => { g with best := usableGroup g && true })) l = 0 := by
        rw [List.countP_eq_zero]
        intro g hg
        have : usableGroup { g with best := usableGroup g && true } = usableGroup g :=
          usableGroup_setBest g _
        simp only [Function.comp, this]
        rw [hnouse g hg]
        simp
      rw [h1, h2]
    · intro g hg
      rw [hmark, List.filter_map] at hg
      have hfe : List.filter (usableGroup ∘
          (fun g => { g with best := usableGroup g && true })) l = [] := by
        rw [List.filter_congr (q := usableGroup)
          (fun x _ => by rw [Function.comp, usableGroup_setBest]), hunil]
      rw [hfe] at hg
      simp at hg
  · -- a last usable group exists
    have hne : l.filter usableGroup ≠ [] := by
      intro h
      rw [h] at hul
      simp at hul
    have hmem : glast ∈ l.filter usableGroup := by
      rw [List.getLast?_eq_getLast _ hne] at hul
      injection hul with h
      rw [← h]
      exact List.getLast_mem hne
    have hmark : markBestGroups l =
        l.map (fun g =>
          { g with best := usableGroup g && decide (g.key ≠ glast.key) }) := by
      simp only [markBestGroups]
      rw [hul]
      rfl
    have hunodup : ((l.filter usableGroup).map (fun g => g.key)).Nodup :=
      List.Nodup.sublist (List.Sublist.map _ (List.filter_sublist l)) hnodup
    refine ⟨?_, ?_, ?_⟩
    · intro g hg hb
      rw [hmark] at hg
      obtain ⟨g0, hg0l, hg0⟩ := List.mem_map.mp hg
      rw [← hg0] at hb ⊢
      rw [usableGroup_setBest]
      exact (Bool.and_eq_true_iff.mp hb).1
    · rw [hmark, List.countP_map, List.countP_map]
      have hcu : List.countP (usableGroup ∘
          (fun g => { g with best := usableGroup g && decide (g.key ≠ glast.key) })) l
          = (l.filter usableGroup).length := by
        rw [List.countP_congr (q := usableGroup)
          (fun x _ => by rw [Function.comp, usableGroup_setBest])]
        rw [List.countP_eq_length_filter]
      have hcb : List.countP ((fun g => g.best) ∘
          (fun g => { g with best := usableGroup g && decide (g.key ≠ glast.key) })) l
          = List.countP (fun x => decide (x.key ≠ glast.key)) (l.filter usableGroup) := by
        rw [List.countP_filter]
        apply List.countP_congr
        intro x _
        rw [Function.comp]
        rw [Bool.and_comm]
      rw [hcu, hcb]
      have hsplit := List.length_eq_countP_add_countP
        (fun x => decide (x.key ≠ glast.key)) (l.filter usableGroup)
      have hone : (l.filter usableGroup).countP
          (fun a => decide ¬ (fun x => decide (x.key ≠ glast.key)) a = true) = 1 := by
        rw [List.countP_congr (q := fun x => decide (x.key = glast.key))
          (by intro x _; simp)]
        exact countP_key_unique glast.key (l.filter usableGroup) hunodup
          (List.mem_map_of_mem _ hmem)
      simp only [] at hsplit hone
      omega
    · intro g hg
      rw [hmark, List.filter_map] at hg
      have hfe : List.filter (usableGroup ∘
          (fun g => { g with best := usableGroup g && decide (g.key ≠ glast.key) })) l
          = l.filter usableGroup := by
        apply List.filter_congr
        intro x _
        rw [Function.comp, usableGroup_setBest]
      rw [hfe, List.getLast?_map, hul] at hg
      simp only [Option.map_some'] at hg
      have hgf : g = { glast with
          best := usableGroup glast && decide (glast.key ≠ glast.key) } := by
        injection hg with h
        exact h.symm
      rw [hgf]
      show (usableGroup glast && decide (glast.key ≠ glast.key)) = false
      rw [decide_eq_false (fun h => h rfl), Bool.and_false]

/-- Witness for `markBestGroups_spec`: two usable groups with distinct
keys; exactly the first is marked best. -/
theorem markBestGroups_spec_witness :
    (([⟨GKey.bus 0 "a", ⟨"a", some 0, none, false, none, none, false, none, none⟩,
        [⟨GKey.bus 0 "a", dashCell, 0, false, none, some 1⟩], false⟩,
       ⟨GKey.bus 1 "b", ⟨"b", some 1, none, false, none, none, false, none, none⟩,
        [⟨GKey.bus 1 "b", dashCell, 0, false, none, some 1⟩], false⟩]
        : List PlanGroup).map (fun g => g.key)).Nodup ∧
    (markBestGroups
      [⟨GKey.bus 0 "a", ⟨"a", some 0, none, false, none, none, false, none, none⟩,
        [⟨GKey.bus 0 "a", dashCell, 0, false, none, some 1⟩], false⟩,
       ⟨GKey.bus 1 "b", ⟨"b", some 1, none, false, none, none, false, none, none⟩,
        [⟨GKey.bus 1 "b", dashCell, 0, false, none, some 1⟩], false⟩]).countP
      (fun g => g.best) =
    (markBestGroups
      [⟨GKey.bus 0 "a", ⟨"a", some 0, none, false, none, none, false, none, none⟩,
        [⟨GKey.bus 0 "a", dashCell, 0, false, none, some 1⟩], false⟩,
       ⟨GKey.bus 1 "b", ⟨"b", some 1, none, false, none, none, false, none, none⟩,
        [⟨GKey.bus 1 "b", dashCell, 0, false, none, some 1⟩], false⟩]).countP
      usableGroup - 1 :=
  ⟨by decide,
    (markBestGroups_spec _ (by decide)).2.1⟩

/-! ## Window-aware schedule selection (`pickSchedBestForWindow`,
planner.js lines 511–530) -/

/-- JS `Map.get`: first (unique) entry with the key. -/
def amGet {α : Type} : List (String × α) → String → Option α
  | [], _ => none
  | e :: t, k => if e.1 = k then some e.2 else amGet t k

/-- JS `Map.set` on an existing key: replace the value in place. -/
def amSet {α : Type} (m : List (String × α)) (k : String) (v : α) : List (String × α) :=
  m.map (fun e => if e.1 = k then (k, v) else e)

theorem amGet_append {α : Type} (m : List (String × α)) (k : String) (v : α)
    (k' : String) :
    amGet (m ++ [(k, v)]) k' =
      match amGet m k' with
      | some w => some w
      | none => if k = k' then some v else none := by
  induction m with
  | nil => simp [amGet]
  | cons e t ih =>
    by_cases h : e.1 = k'
    · simp [amGet, h]
    · simp only [List.cons_append, amGet, if_neg h]
      exact ih

theorem amGet_amSet {α : Type} (m : List (String × α)) (k : String) (v : α)
    (k' : String) :
    amGet (amSet m k v) k' =
      if k = k' then (amGet m k).map (fun _ => v) else amGet m k' := by
  induction m with
  | nil => by_cases h : k = k' <;> simp [amGet, amSet, h]
  | cons e t ih =>
    simp only [amSet, List.map_cons] at ih ⊢
    by_cases hek : e.1 = k
    · rw [if_pos hek]
      by_cases hkk : k = k'
      · subst hkk
        simp [amGet, hek]
      · have hek2 : ¬ e.1 = k' := by rw [hek]; exact hkk
        simp [amGet, hkk, hek2, ih]
    · rw [if_neg hek]
      by_cases hek' : e.1 = k'
      · have hkk : ¬ k = k' := fun h => hek (by rw [h]; exact hek')
        simp [amGet, hek', hkk]
      · simp [amGet, hek, hek', ih]

/-- `p.fromT >= start && p.fromT <= end`. -/
def inWinB (start endT t : Int) : Bool :=
  decide (start ≤ t) && decide (t ≤ endT)

/-- The replacement test of `pickSchedBestForWindow`'s upsert (the three
sequential `if (...) m.set(...)` branches are mutually exclusive):
in-window beats out-of-window, earlier wins inside, and closer to `start`
wins outside (`Math.abs` is `Int.natAbs` of the difference). -/
def replaceCond (start endT : Int) (prev p : SchedPair) : Bool :=
  (inWinB start endT p.fromT && !inWinB start endT prev.fromT) ||
  (inWinB start endT p.fromT && inWinB start endT prev.fromT &&
    decide (p.fromT < prev.fromT)) ||
  (!inWinB start endT p.fromT && !inWinB start endT prev.fromT &&
    decide ((p.fromT - start).natAbs < (prev.fromT - start).natAbs))

/-- One iteration of `pickSchedBestForWindow`'s loop. -/
def pickStep (start endT : Int) (m : List (String × SchedPair)) (p : SchedPair) :
    List (String × SchedPair) :=
  match amGet m p.tripId with
  | none => m ++ [(p.tripId, p)]
  | some prev => if replaceCond start endT prev p then amSet m p.tripId p else m

/-- `pickSchedBestForWindow(schedPairs, start, end)` (planner.js lines
511–530): reduce scheduled pairs to one per trip id with window-aware
preference. -/
def pickSchedBestForWindow (schedPairs : List SchedPair) (start endT : Int) :
    List (String × SchedPair) :=
  schedPairs.foldl (pickStep start endT) []

/-- `p` is at least as preferred as `q` under the window-aware rule:
if `q` is in-window so is `p`; among two in-window pairs `p` is no later;
among two out-of-window pairs `p` is no farther from `start`. -/
def WBeats (start endT : Int) (p q : SchedPair) : Prop :=
  ((start ≤ q.fromT ∧ q.fromT ≤ endT) → (start ≤ p.fromT ∧ p.fromT ≤ endT)) ∧
  ((start ≤ p.fromT ∧ p.fromT ≤ endT) → (start ≤ q.fromT ∧ q.fromT ≤ endT) →
    p.fromT ≤ q.fromT) ∧
  (¬ (start ≤ p.fromT ∧ p.fromT ≤ endT) → ¬ (start ≤ q.fromT ∧ q.fromT ≤ endT) →
    (p.fromT - start).natAbs ≤ (q.fromT - start).natAbs)

theorem wbeats_refl (start endT : Int) (p : SchedPair) : WBeats start endT p p := by
  unfold WBeats
  omega

theorem wbeats_trans (start endT : Int) (a b c : SchedPair)
    (hab : WBeats start endT a b) (hbc : WBeats start endT b c) :
    WBeats start endT a c := by
  unfold WBeats at hab hbc ⊢
  omega

theorem wbeats_of_replace (start endT : Int) (prev p : SchedPair)
    (h : replaceCond start endT prev p = true) : WBeats start endT p prev := by
  simp only [replaceCond, inWinB, Bool.or_eq_true, Bool.and_eq_true,
    Bool.not_eq_true', Bool.and_eq_false_iff, decide_eq_true_eq,
    decide_eq_false_iff_not, not_and, not_le] at h
  unfold WBeats
  omega

theorem wbeats_of_keep (start endT : Int) (prev p : SchedPair)
    (h : replaceCond start endT prev p = false) : WBeats start endT prev p := by
  simp only [replaceCond, inWinB, Bool.or_eq_false_iff, Bool.and_eq_false_iff,
    Bool.not_eq_false', Bool.and_eq_true, decide_eq_true_eq,
    decide_eq_false_iff_not, not_and, not_le, not_lt] at h
  unfold WBeats
  omega

/-- Invariant of the `pickSchedBestForWindow` fold: every map entry is a
processed pair under its own trip id that weakly beats every processed
pair of that trip id, and every processed pair's trip id has an entry. -/
def PickInv (start endT : Int) (P : SchedPair → Prop)
    (m : List (String × SchedPair)) : Prop :=
  (∀ tid v, amGet m tid = some v →
    v.tripId = tid ∧ P v ∧ ∀ q, P q → q.tripId = tid → WBeats start endT v q) ∧
  (∀ q, P q → amGet m q.tripId ≠ none)

theorem pickInv_iff (start endT : Int) (P P' : SchedPair → Prop)
    (m : List (String × SchedPair)) (hiff : ∀ q, P q ↔ P' q)
    (h : PickInv start endT P m) : PickInv start endT P' m := by
  obtain ⟨h1, h2⟩ := h
  constructor
  · intro tid v hv
    obtain ⟨ha, hb, hc⟩ := h1 tid v hv
    exact ⟨ha, (hiff v).mp hb, fun q hq => hc q ((hiff q).mpr hq)⟩
  · intro q hq
    exact h2 q ((hiff q).mpr hq)

theorem pickStep_inv (start endT : Int) (P : SchedPair → Prop)
    (m : List (String × SchedPair)) (x : SchedPair)
    (h : PickInv start endT P m) :
    PickInv start endT (fun q => P q ∨ q = x) (pickStep start endT m x) := by
  obtain ⟨h1, h2⟩ := h
  unfold pickStep
  cases hx : amGet m x.tripId with
  | none =>
    constructor
    · intro tid v hv
      rw [amGet_append] at hv
      cases hm : amGet m tid with
      | some w =>
        rw [hm] at hv
        simp only [] at hv
        obtain ⟨ha, hb, hc⟩ := h1 tid w hm
        injection hv with hv
        subst hv
        refine ⟨ha, Or.inl hb, ?_⟩
        intro q hq hqt
        rcases hq with hq | hq
        · exact hc q hq hqt
        · subst hq
          rw [hqt] at hx
          rw [hm] at hx
          exact absurd hx (by simp)
      | none =>
        rw [hm] at hv
        simp only [] at hv
        by_cases hkt : x.tripId = tid
        · rw [if_pos hkt] at hv
          injection hv with hv
          subst hv
          refine ⟨hkt, Or.inr rfl, ?_⟩
          intro q hq hqt
          rcases hq with hq | hq
          · exfalso
            apply h2 q hq
            rw [hqt]
            exact hm
          · rw [hq]
            exact wbeats_refl start endT x
        · rw [if_neg hkt] at hv
          exact absurd hv (by simp)
    · intro q hq
      rcases hq with hq | hq
      · have := h2 q hq
        rw [amGet_append]
        cases hm : amGet m q.tripId with
        | some w => simp
        | none => exact absurd hm this
      · subst hq
        rw [amGet_append, hx, if_pos rfl]
        simp
  | some prev =>
    by_cases hrep : replaceCond start endT prev x = true
    · show PickInv start endT (fun q => P q ∨ q = x)
        (if replaceCond start endT prev x = true then amSet m x.tripId x else m)
      rw [if_pos hrep]
      obtain ⟨hpa, hpb, hpc⟩ := h1 x.tripId prev hx
      constructor
      · intro tid v hv
        rw [amGet_amSet] at hv
        by_cases hkt : x.tripId = tid
        · rw [if_pos hkt, hx] at hv
          simp only [Option.map_some'] at hv
          injection hv with hv
          subst hv
          refine ⟨hkt, Or.inr rfl, ?_⟩
          intro q hq hqt
          rcases hq with hq | hq
          · exact wbeats_trans start endT x prev q
              (wbeats_of_replace start endT prev x hrep)
              (hpc q hq (by rw [hqt, ← hkt]))
          · rw [hq]
            exact wbeats_refl start endT x
        · rw [if_neg hkt] at hv
          obtain ⟨ha, hb, hc⟩ := h1 tid v hv
          refine ⟨ha, Or.inl hb, ?_⟩
          intro q hq hqt
          rcases hq with hq | hq
          · exact hc q hq hqt
          · exfalso
            rw [hq] at hqt
            exact hkt hqt
      · intro q hq
        rw [amGet_amSet]
        rcases hq with hq | hq
        · by_cases hkt : x.tripId = q.tripId
          · rw [if_pos hkt, hx]
            simp
          · rw [if_neg hkt]
            exact h2 q hq
        · subst hq
          rw [if_pos rfl, hx]
          simp
    · show PickInv start endT (fun q => P q ∨ q = x)
        (if replaceCond start endT prev x = true then amSet m x.tripId x else m)
      rw [if_neg hrep]
      have hkeep : replaceCond start endT prev x = false := by
        simpa using hrep
      constructor
      · intro tid v hv
        obtain ⟨ha, hb, hc⟩ := h1 tid v hv
        refine ⟨ha, Or.inl hb, ?_⟩
        intro q hq hqt
        rcases hq with hq | hq
        · exact hc q hq hqt
        · have hxt : x.tripId = tid := by rw [← hq]; exact hqt
          have hveq : v = prev := by
            rw [hxt, hv] at hx
            simpa using hx
          rw [hq, hveq]
          exact wbeats_of_keep start endT prev x hkeep
      · intro q hq
        rcases hq with hq | hq
        · exact h2 q hq
        · subst hq
          rw [hx]
          simp

theorem pickFold_inv (start endT : Int) :
    ∀ (rest : List SchedPair) (m : List (String × SchedPair))
      (P : SchedPair → Prop), PickInv start endT P m →
      PickInv start endT (fun q => P q ∨ q ∈ rest)
        (rest.foldl (pickStep start endT) m) := by
  intro rest
  induction rest with
  | nil =>
    intro m P h
    apply pickInv_iff start endT P _ m (by simp)
    exact h
  | cons a t ih =>
    intro m P h
    rw [List.foldl_cons]
    have hstep := pickStep_inv start endT P m a h
    have := ih (pickStep start endT m a) (fun q => P q ∨ q = a) hstep
    apply pickInv_iff start endT _ _ _ ?_ this
    intro q
    constructor
    · rintro ((hq | hq) | hq)
      · exact Or.inl hq
      · exact Or.inr (by rw [hq]; exact List.mem_cons_self a t)
      · exact Or.inr (List.mem_cons_of_mem a hq)
    · rintro (hq | hq)
      · exact Or.inl (Or.inl hq)
      · rcases List.mem_cons.mp hq with hq | hq
        · exact Or.inl (Or.inr hq)
        · exact Or.inr hq

/-- C8: window-aware schedule selection.  Every pair kept by
`pickSchedBestForWindow` is one of the candidates for its trip id, and for
every candidate `q` of the same trip id: if `q`'s origin is inside
`[start, end]` so is the kept pair's; among two in-window pairs the kept
one has the earlier (or equal) origin; among two out-of-window pairs the
kept one's origin is at least as close to `start`. -/
theorem pickSchedBestForWindow_spec (schedPairs : List SchedPair)
    (start endT : Int) (tid : String) (p : SchedPair)
    (h : amGet (pickSchedBestForWindow schedPairs start endT) tid = some p) :
    p.tripId = tid ∧ p ∈ schedPairs ∧
    ∀ q ∈ schedPairs, q.tripId = tid →
      ((start ≤ q.fromT ∧ q.fromT ≤ endT) → (start ≤ p.fromT ∧ p.fromT ≤ endT)) ∧
      ((start ≤ p.fromT ∧ p.fromT ≤ endT) → (start ≤ q.fromT ∧ q.fromT ≤ endT) →
        p.fromT ≤ q.fromT) ∧
      (¬ (start ≤ p.fromT ∧ p.fromT ≤ endT) → ¬ (start ≤ q.fromT ∧ q.fromT ≤ endT) →
        (p.fromT - start).natAbs ≤ (q.fromT - start).natAbs) := by
  have hbase : PickInv start endT (fun _ => False) [] := by
    constructor
    · intro tid v hv
      simp [amGet] at hv
    · intro q hq
      exact absurd hq (by simp)
  have hinv := pickFold_inv start endT schedPairs [] (fun _ => False) hbase
  obtain ⟨h1, _⟩ := hinv
  obtain ⟨ha, hb, hc⟩ := h1 tid p h
  refine ⟨ha, ?_, ?_⟩
  · rcases hb with hb | hb
    · exact absurd hb (by simp)
    · exact hb
  · intro q hq hqt
    exact hc q (Or.inr hq) hqt

/-- Witness for `pickSchedBestForWindow_spec`: two candidates for trip
`"t"`, one inside the window and one outside; the in-window one is kept
and beats the other. -/
theorem pickSchedBestForWindow_spec_witness :
    amGet (pickSchedBestForWindow
      [⟨"t", -5, 10⟩, ⟨"t", 3, 20⟩] 0 100) "t" = some ⟨"t", 3, 20⟩ ∧
    (⟨"t", 3, 20⟩ : SchedPair) ∈ ([⟨"t", -5, 10⟩, ⟨"t", 3, 20⟩] : List SchedPair) ∧
    ((0 ≤ (-5 : Int) ∧ (-5 : Int) ≤ 100) → (0 ≤ (3 : Int) ∧ (3 : Int) ≤ 100)) := by
  refine ⟨by decide, ?_, by omega⟩
  exact (pickSchedBestForWindow_spec [⟨"t", -5, 10⟩, ⟨"t", 3, 20⟩] 0 100 "t"
    ⟨"t", 3, 20⟩ (by decide)).2.1

/-! ## Partial-overlay merge (`mergePairsPartial`, planner.js lines
534–572; renamed `mergePairsPartialOverlay` here) -/

/-- JS `Set` insertion-order union: keep the first occurrence of each
element. -/
def dedupFirst (l : List String) : List String :=
  l.foldl (fun acc a => if a ∈ acc then acc else acc ++ [a]) []

theorem dedupFirst_aux_mem (a : String) :
    ∀ (l acc : List String),
      (a ∈ l.foldl (fun acc x => if x ∈ acc then acc else acc ++ [x]) acc ↔
        a ∈ acc ∨ a ∈ l) := by
  intro l
  induction l with
  | nil => intro acc; simp
  | cons b t ih =>
    intro acc
    rw [List.foldl_cons, ih]
    by_cases hb : b ∈ acc
    · rw [if_pos hb]
      constructor
      · rintro (h | h)
        · exact Or.inl h
        · exact Or.inr (List.mem_cons_of_mem b h)
      · rintro (h | h)
        · exact Or.inl h
        · rcases List.mem_cons.mp h with h | h
          · exact Or.inl (h ▸ hb)
          · exact Or.inr h
    · rw [if_neg hb]
      simp only [List.mem_append, List.mem_singleton, List.mem_cons]
      tauto

theorem mem_dedupFirst (a : String) (l : List String) :
    a ∈ dedupFirst l ↔ a ∈ l := by
  unfold dedupFirst
  rw [dedupFirst_aux_mem]
  simp

/-- The body of the per-trip merge loop (planner.js lines 544–568):
overlay the predicted endpoint instants, when present, over the selected
scheduled pair, and drop the trip when an endpoint is missing or the
origin is not strictly before the destination. -/
def mergeOne (schedMap : List (String × SchedPair))
    (predFromMap predToMap : List (String × Int)) (tid : String) :
    Option LegPair :=
  let s := amGet schedMap tid
  let schedFromT := s.map (fun p => p.fromT)
  let schedToT := s.map (fun p => p.toT)
  let predFromT := amGet predFromMap tid
  let predToT := amGet predToMap tid
  match predFromT.orElse (fun _ => schedFromT), predToT.orElse (fun _ => schedToT) with
  | some fromT, some toT =>
    if fromT < toT then
      some ⟨tid, fromT, toT, predFromT.isSome, predToT.isSome, schedFromT, schedToT⟩
    else none
  | some _, none => none
  | none, _ => none

/-- `mergePairsPartial(schedPairs, predFromMap, predToMap, start, end)`
(planner.js lines 534–572): window-aware schedule selection, per-trip
partial overlay over the union of trip ids, sorted by origin instant.
Callers pass empty maps when predictions are disabled (`null` in JS). -/
def mergePairsPartialOverlay (schedPairs : List SchedPair)
    (predFromMap predToMap : List (String × Int)) (start endT : Int) :
    List LegPair :=
  let schedMap := pickSchedBestForWindow schedPairs start endT
  let tripIds := dedupFirst (schedMap.map (fun e => e.1) ++
    predFromMap.map (fun e => e.1) ++ predToMap.map (fun e => e.1))
  let out := tripIds.filterMap (mergeOne schedMap predFromMap predToMap)
  stableSort (fun a b => decide (a.fromT ≤ b.fromT)) out

theorem mergeOne_tripId (schedMap : List (String × SchedPair))
    (pf pt : List (String × Int)) (tid : String) (p : LegPair)
    (h : mergeOne schedMap pf pt tid = some p) : p.tripId = tid := by
  simp only [mergeOne] at h
  rcases hf : (amGet pf tid).orElse
      (fun _ => (amGet schedMap tid).map (fun p => p.fromT)) with _ | f <;>
    rcases ht : (amGet pt tid).orElse
      (fun _ => (amGet schedMap tid).map (fun p => p.toT)) with _ | t <;>
    rw [hf, ht] at h
  · cases h
  · cases h
  · cases h
  · simp only [] at h
    by_cases hlt : f < t
    · rw [if_pos hlt] at h
      injection h with h
      rw [← h]
    · rw [if_neg hlt] at h
      cases h

/-- Membership in the merged output is membership in the per-trip
`filterMap` (the final sort is a permutation). -/
theorem mem_mergePairsPartialOverlay (schedPairs : List SchedPair)
    (pf pt : List (String × Int)) (start endT : Int) (p : LegPair) :
    p ∈ mergePairsPartialOverlay schedPairs pf pt start endT ↔
      ∃ tid ∈ dedupFirst ((pickSchedBestForWindow schedPairs start endT).map (fun e => e.1) ++
        pf.map (fun e => e.1) ++ pt.map (fun e => e.1)),
        mergeOne (pickSchedBestForWindow schedPairs start endT) pf pt tid = some p := by
  unfold mergePairsPartialOverlay
  rw [(stableSort_perm _ _).mem_iff, List.mem_filterMap]

/-- C4: partial-overlay merge.  For every trip id in the union of the
(window-selected) schedule map and the two per-endpoint prediction maps:
when both endpoints resolve (predicted value if present, else scheduled)
and the origin is strictly before the destination, the output contains
exactly one pair for that trip, carrying the overlaid instants, the
per-endpoint predicted flags (set iff the predicted value was used), and
the scheduled fallbacks; otherwise the trip is dropped.  In particular a
trip with a predicted destination but no predicted origin yields predicted
destination + scheduled origin, flagged predicted only at the
destination. -/
theorem mergePairsPartialOverlay_spec (schedPairs : List SchedPair)
    (pf pt : List (String × Int)) (start endT : Int) (tid : String)
    (hmem : tid ∈ (pickSchedBestForWindow schedPairs start endT).map (fun e => e.1) ∨
      tid ∈ pf.map (fun e => e.1) ∨ tid ∈ pt.map (fun e => e.1)) :
    (∀ f t : Int,
      (amGet pf tid).orElse
        (fun _ => (amGet (pickSchedBestForWindow schedPairs start endT) tid).map
          (fun p => p.fromT)) = some f →
      (amGet pt tid).orElse
        (fun _ => (amGet (pickSchedBestForWindow schedPairs start endT) tid).map
          (fun p => p.toT)) = some t →
      f < t →
      ((⟨tid, f, t, (amGet pf tid).isSome, (amGet pt tid).isSome,
          (amGet (pickSchedBestForWindow schedPairs start endT) tid).map (fun p => p.fromT),
          (amGet (pickSchedBestForWindow schedPairs start endT) tid).map (fun p => p.toT)⟩ : LegPair)
          ∈ mergePairsPartialOverlay schedPairs pf pt start endT ∧
        ∀ p ∈ mergePairsPartialOverlay schedPairs pf pt start endT, p.tripId = tid →
          p = ⟨tid, f, t, (amGet pf tid).isSome, (amGet pt tid).isSome,
            (amGet (pickSchedBestForWindow schedPairs start endT) tid).map (fun p => p.fromT),
            (amGet (pickSchedBestForWindow schedPairs start endT) tid).map (fun p => p.toT)⟩)) ∧
    (mergeOne (pickSchedBestForWindow schedPairs start endT) pf pt tid = none →
      ∀ p ∈ mergePairsPartialOverlay schedPairs pf pt start endT, p.tripId ≠ tid) := by
  have htid : tid ∈ dedupFirst ((pickSchedBestForWindow schedPairs start endT).map (fun e => e.1) ++
      pf.map (fun e => e.1) ++ pt.map (fun e => e.1)) := by
    rw [mem_dedupFirst]
    simp only [List.mem_append]
    tauto
  constructor
  · intro f t hf ht hlt
    have hone : mergeOne (pickSchedBestForWindow schedPairs start endT) pf pt tid =
        some ⟨tid, f, t, (amGet pf tid).isSome, (amGet pt tid).isSome,
          (amGet (pickSchedBestForWindow schedPairs start endT) tid).map (fun p => p.fromT),
          (amGet (pickSchedBestForWindow schedPairs start endT) tid).map (fun p => p.toT)⟩ := by
      simp only [mergeOne]
      rw [hf, ht]
      simp only [if_pos hlt]
    constructor
    · rw [mem_mergePairsPartialOverlay]
      exact ⟨tid, htid, hone⟩
    · intro p hp hpt
      rw [mem_mergePairsPartialOverlay] at hp
      obtain ⟨tid', _, hone'⟩ := hp
      have : tid' = tid := by
        rw [← hpt]
        exact (mergeOne_tripId _ _ _ _ _ hone').symm
      rw [this, hone] at hone'
      injection hone' with h
      exact h.symm
  · intro hnone p hp hpt
    rw [mem_mergePairsPartialOverlay] at hp
    obtain ⟨tid', _, hone'⟩ := hp
    have : tid' = tid := by
      rw [← hpt]
      exact (mergeOne_tripId _ _ _ _ _ hone').symm
    rw [this, hnone] at hone'
    cases hone'

/-- Witness for `mergePairsPartialOverlay_spec`: the spec's §8 scenario —
a trip with a scheduled pair and a predicted destination but no predicted
origin; the merged pair uses predicted destination + scheduled origin and
is flagged predicted only at the destination. -/
theorem mergePairsPartialOverlay_spec_witness :
    ((⟨"t", 100, 900, false, true, some 100, some 500⟩ : LegPair)
        ∈ mergePairsPartialOverlay [⟨"t", 100, 500⟩] [] [("t", 900)] 0 1000) := by
  have h := (mergePairsPartialOverlay_spec [⟨"t", 100, 500⟩] [] [("t", 900)] 0 1000 "t"
    (by right; right; decide)).1 100 900 (by decide) (by decide) (by decide)
  exact h.1

/-! ## Plan assembly (`buildGroupsForWindow`, planner.js lines 611–983).
The data-source fetches (child stops, schedule and prediction loads,
alerts) are external collaborators; their already-fetched results enter
here as parameters, exactly as the code consumes them after `await`. -/

/-- `canUsePredictions(state)` (planner.js lines 483–486). -/
def canUsePredictions (state : PlannerState) : Bool :=
  decide (jsTrim state.startOverride = "")

/-- The layover column text: `"—"` or `padWait(min)` (which is never a
dash). -/
inductive LayoverText where
  | dash
  | wait (min : Int)
deriving DecidableEq, Repr

/-- One display row; `home = none` stands for the empty-string cell the
code emits when the home column is absent or blank-by-absence. -/
structure Row where
  arlington : TimeCell
  park : TimeCell
  layover : LayoverText
  harvard : TimeCell
  home : Option TimeCell
  bestRow : Bool
deriving DecidableEq, Repr

instance : Inhabited Row :=
  ⟨⟨dashCell, dashCell, LayoverText.dash, dashCell, none, false⟩⟩

/-- One output group of the plan. -/
structure OutGroup where
  key : GKey
  tripId : String
  meta : GroupMeta
  best : Bool
  rowsCollapsed : Row
  rowsExpanded : List Row
deriving DecidableEq, Repr

/-- Per-mode alert counts (pass-through from the alerts fetch). -/
structure AlertCounts where
  green : Int
  red : Int
  bus : Int
deriving DecidableEq, Repr

/-- The returned plan object (planner.js lines 972–982). -/
structure Plan where
  start : Int
  endT : Int
  includeHome : Bool
  alerts : List String
  alertCounts : AlertCounts
  alertsCountTotal : Nat
  groups : List OutGroup
  groupsAvailable : Bool
  overrideOk : Bool
deriving DecidableEq, Repr

/-- A grouping-map entry before meta attachment:
`{key, meta: null, items}`. -/
structure GroupRaw where
  key : GKey
  items : List Assignment
deriving DecidableEq, Repr

/-- Insert one assignment into the grouping map (planner.js lines
800–804): append to the existing key's items, or append a new entry. -/
def pushAssign (gs : List GroupRaw) (a : Assignment) : List GroupRaw :=
  if gs.any (fun g => decide (g.key = a.gkey)) then
    gs.map (fun g => if g.key = a.gkey then ⟨g.key, g.items ++ [a]⟩ else g)
  else gs ++ [⟨a.gkey, [a]⟩]

/-- `t >= start && t <= end` on an optional instant. -/
def homeInWindowB (start endT : Int) (home : Option Int) : Bool :=
  match home with
  | some h => decide (start ≤ h) && decide (h ≤ endT)
  | none => false

/-- Keep bus groups visible even with no viable connections (planner.js
lines 806–815): a bus whose departure, or home arrival when the home leg
is included, falls inside the window gets an (empty) group entry. -/
def ensureBusGroup (includeHome : Bool) (start endT : Int)
    (gs : List GroupRaw) (b : BusTrip) : List GroupRaw :=
  let depInWindow := decide (start ≤ b.dep) && decide (b.dep ≤ endT)
  let homeInWindow := includeHome && homeInWindowB start endT b.home
  if depInWindow || homeInWindow then
    if gs.any (fun g => decide (g.key = GKey.bus b.dep b.tripId)) then gs
    else gs ++ [⟨GKey.bus b.dep b.tripId, []⟩]
  else gs

/-- The `busLookup` map (planner.js lines 677–678): keyed by
departure + trip id; a later entry with the same key overwrites an
earlier one. -/
def busLookup (busSorted : List BusTrip) (dep : Int) (tripId : String) :
    Option BusTrip :=
  busSorted.reverse.find? (fun b => decide (b.dep = dep) && decide (b.tripId = tripId))

/-- Attach `g.meta` and sort the group's items by upstream (Park) origin
(planner.js lines 817–850). -/
def attachMeta (busSorted : List BusTrip) (g : GroupRaw) : PlanGroup :=
  let items := stableSort (fun x y => decide (x.redParkDate ≤ y.redParkDate)) g.items
  match g.key with
  | GKey.NONE =>
    ⟨GKey.NONE, ⟨"__NONE__", none, none, false, none, none, false, none, none⟩,
      items, false⟩
  | GKey.bus dep tripId =>
    let b := busLookup busSorted dep tripId
    ⟨GKey.bus dep tripId,
      ⟨tripId, some dep,
        b.bind (fun x => x.arrDisp),
        (b.map (fun x => x.arrPred)).getD false,
        b.bind (fun x => x.schedArr),
        b.bind (fun x => x.home),
        (b.map (fun x => x.homePred)).getD false,
        b.bind (fun x => x.schedHome),
        none⟩,
      items, false⟩

/-- The chronological group order (planner.js lines 852–861): bus groups
by departure ascending, the `NONE` group last. -/
def groupLE (a b : PlanGroup) : Bool :=
  match a.key, b.key with
  | GKey.NONE, GKey.NONE => true
  | GKey.NONE, GKey.bus _ _ => false
  | GKey.bus _ _, GKey.NONE => true
  | GKey.bus d1 _, GKey.bus d2 _ => decide (d1 ≤ d2)

/-- The expanded rows of a non-empty group, one per assignment
(planner.js lines 918–951); terminal (Harvard) and home cells only on the
last row. -/
def expandedItemRows (includeHome : Bool) (g : PlanGroup) : List Row :=
  g.items.enum.map (fun pr =>
    let isLast := pr.1 = g.items.length - 1
    ({ arlington := pr.2.arlington
       park := ⟨CellText.time pr.2.redParkDate, pr.2.redParkPred, schedCT pr.2.redParkSched⟩
       layover :=
         match pr.2.waitMin with
         | none => LayoverText.dash
         | some w => LayoverText.wait w
       harvard :=
         if isLast then
           match g.meta.busArr with
           | some a => ⟨CellText.time a, g.meta.busArrPred, schedCT g.meta.busArrSched⟩
           | none => blankCell
         else blankCell
       home :=
         if includeHome then
           some (if isLast then
             match g.meta.home with
             | some h => ⟨CellText.time h, g.meta.homePred, schedCT g.meta.homeSched⟩
             | none => blankCell
           else blankCell)
         else none
       bestRow := false } : Row))

/-- `rowsExpanded[bestIdx].bestRow = true` (planner.js line 955). -/
def markLastRowBest (bestIdx : Nat) (rows : List Row) : List Row :=
  rows.enum.map (fun pr => if pr.1 = bestIdx then { pr.2 with bestRow := true } else pr.2)

/-- The collapsed row: a copy of the last expanded row, with the Arlington
cell backfilled from the last item when blank (planner.js lines
958–967). -/
def collapseLast (lastRow : Row) : Option Assignment → Row
  | some li =>
    if lastRow.arlington.text = CellText.empty ∧ li.arlington.text ≠ CellText.empty then
      { lastRow with arlington := li.arlington }
    else lastRow
  | none => lastRow

/-- `onlyHomeLeft` (planner.js lines 875–878): the home arrival is still
inside the window while the middle-stop (Harvard) arrival is missing or
outside it. -/
def onlyHomeLeftB (includeHome : Bool) (start endT : Int)
    (busArr homeArr : Option Int) : Bool :=
  includeHome && homeInWindowB start endT homeArr &&
    (match busArr with
      | none => true
      | some a => decide (a < start) || decide (endT < a))

/-- Build one output group's rows (planner.js lines 866–970). -/
def buildRowsForGroup (includeHome : Bool) (start endT now layoverMin : Int)
    (g : PlanGroup) : OutGroup :=
  if g.items.length = 0 then
    let busArr := g.meta.busArr
    let homeArr := if includeHome then g.meta.home else none
    let onlyHomeLeft := onlyHomeLeftB includeHome start endT busArr homeArr
    let mhl := max 0 layoverMin
    let minsToHarvardArr := busArr.map (fun a => max 0 ((a - now).fdiv msPerMin))
    let proxyLayoverMin := minsToHarvardArr.map (fun m => min m mhl)
    let row : Row :=
      { arlington := dashCell
        park := dashCell
        layover :=
          if onlyHomeLeft then LayoverText.dash
          else
            match proxyLayoverMin with
            | none => LayoverText.dash
            | some m => LayoverText.wait m
        harvard :=
          if onlyHomeLeft then dashCell
          else
            match busArr with
            | some a => ⟨CellText.time a, g.meta.busArrPred, schedCT g.meta.busArrSched⟩
            | none => dashCell
        home :=
          if includeHome then
            match homeArr with
            | some h => some ⟨CellText.time h, g.meta.homePred, schedCT g.meta.homeSched⟩
            | none => none
          else none
        bestRow := false }
    ⟨g.key, g.meta.tripId, { g.meta with parkBestDate := none }, g.best, row, [row]⟩
  else
    let rows0 := expandedItemRows includeHome g
    let bestIdx := g.items.length - 1
    let parkBest := (g.items.getD bestIdx default).redParkDate
    let rowsExpanded := if g.best then markLastRowBest bestIdx rows0 else rows0
    let lastRow := rowsExpanded.getLastD default
    let rowsCollapsed := collapseLast lastRow g.items.getLast?
    ⟨g.key, g.meta.tripId, { g.meta with parkBestDate := some parkBest }, g.best,
      rowsCollapsed, rowsExpanded⟩

/-- Line 675: when the home leg is included, only buses headed toward home
(`b.home && b.home > b.dep`) are considered. -/
def homewardFilter (includeHome : Bool) (busInput : List BusTrip) : List BusTrip :=
  if includeHome then
    busInput.filter (fun b =>
      match b.home with
      | some h => decide (b.dep < h)
      | none => false)
  else busInput

/-- Line 746: keep upstream (Red) pairs whose Park origin falls inside the
window, sorted by origin. -/
def windowRedPairs (redPairs : List LegPair) (start endT : Int) : List LegPair :=
  stableSort (fun a b => decide (a.fromT ≤ b.fromT))
    (redPairs.filter (fun p => decide (start ≤ p.fromT) && decide (p.fromT ≤ endT)))

/-- The Connection Assigner's output: one `Assignment` per in-window
upstream pair (planner.js lines 751–797). -/
def plannerAssigned (greenPairs : List LegPair) (busSorted : List BusTrip)
    (start bufferMs : Int) (redPairs : List LegPair) : List Assignment :=
  redPairs.map (assignOne greenPairs busSorted start bufferMs)

/-- The grouping map as an insertion-ordered list (planner.js lines
799–815). -/
def plannerGroupsRaw (busSorted : List BusTrip) (includeHome : Bool)
    (start endT : Int) (assigned : List Assignment) : List GroupRaw :=
  busSorted.foldl (ensureBusGroup includeHome start endT)
    (assigned.foldl pushAssign [])

/-- The ordered, best-marked group list (planner.js lines 817–863). -/
def plannerGroups (busSorted : List BusTrip) (includeHome : Bool)
    (start endT : Int) (assigned : List Assignment) : List PlanGroup :=
  markBestGroups
    (stableSort groupLE
      ((plannerGroupsRaw busSorted includeHome start endT assigned).map
        (attachMeta busSorted)))

/-- `buildGroupsForWindow(state, cfg)` (planner.js lines 611–983), with
the fetched schedule/prediction inputs and alert results as parameters:
`busInput` is `mergeBusByTripId`'s output; the green and red legs are
merged here from their schedule lists and per-endpoint prediction maps
(empty maps model the `null` maps used when predictions are disabled). -/
def buildGroupsForWindow (state : PlannerState) (realNow : Int) (cfgHours : Int)
    (busInput : List BusTrip)
    (schedGreen : List SchedPair) (predArl predPark : List (String × Int))
    (schedRed : List SchedPair) (predParkRed predHarv : List (String × Int))
    (alerts : List String) (alertCounts : AlertCounts) : Plan :=
  let includeHome := decide (jsTrim state.homeStop ≠ "")
  let ni := getNowInfo state realNow
  let start := ni.now
  let endT := start + cfgHours * 3600 * 1000
  let busSorted := homewardFilter includeHome busInput
  let canPred := canUsePredictions state
  let greenPairs :=
    stableSort (fun a b => decide (a.toT ≤ b.toT))
      (if canPred then mergePairsPartialOverlay schedGreen predArl predPark start endT
       else mergePairsPartialOverlay schedGreen [] [] start endT)
  let redPairs :=
    windowRedPairs
      (if canPred then mergePairsPartialOverlay schedRed predParkRed predHarv start endT
       else mergePairsPartialOverlay schedRed [] [] start endT) start endT
  let bufferMs := max 0 state.layoverMin * msPerMin
  let assigned := plannerAssigned greenPairs busSorted start bufferMs redPairs
  let groupsMarked := plannerGroups busSorted includeHome start endT assigned
  let out := groupsMarked.map
    (buildRowsForGroup includeHome start endT (getNow state realNow) state.layoverMin)
  { start := start
    endT := endT
    includeHome := includeHome
    alerts := alerts
    alertCounts := alertCounts
    alertsCountTotal := alerts.length
    groups := out
    groupsAvailable := decide (0 < redPairs.length)
    overrideOk := ni.overrideOk }

/-- `getBestGroup(plan)` (notify.js lines 116–118): find the group whose
collapsed row carries `bestRow`. -/
def getBestGroup (plan : Plan) : Option OutGroup :=
  plan.groups.find? (fun g => g.rowsCollapsed.bestRow)

/-- In both branches of `assignOne`, the recorded upstream origin is the
pair's `fromT`. -/
theorem assignOne_redParkDate (greenPairs : List LegPair) (busSorted : List BusTrip)
    (start bufferMs : Int) (rp : LegPair) :
    (assignOne greenPairs busSorted start bufferMs rp).redParkDate = rp.fromT := by
  simp only [assignOne]
  cases lowerBoundByDep busSorted (rp.toT + bufferMs) <;> rfl

/-- C5: window containment.  Every assignment produced by the Connection
Assigner has its upstream (Red at Park) origin instant inside
`[start, end]`, and there is exactly one assignment per in-window upstream
pair (so out-of-window pairs produce none). -/
theorem windowContainment (greenPairs : List LegPair) (busSorted : List BusTrip)
    (start bufferMs endT : Int) (redPairs0 : List LegPair) :
    (∀ a ∈ plannerAssigned greenPairs busSorted start bufferMs
        (windowRedPairs redPairs0 start endT),
      start ≤ a.redParkDate ∧ a.redParkDate ≤ endT) ∧
    (plannerAssigned greenPairs busSorted start bufferMs
        (windowRedPairs redPairs0 start endT)).length =
      (redPairs0.filter
        (fun p => decide (start ≤ p.fromT) && decide (p.fromT ≤ endT))).length := by
  constructor
  · intro a ha
    obtain ⟨rp, hrp, hrpa⟩ := List.mem_map.mp ha
    rw [← hrpa, assignOne_redParkDate]
    have hrp' : rp ∈ redPairs0.filter
        (fun p => decide (start ≤ p.fromT) && decide (p.fromT ≤ endT)) := by
      unfold windowRedPairs at hrp
      exact (stableSort_perm _ _).mem_iff.mp hrp
    have := List.of_mem_filter hrp'
    simp only [Bool.and_eq_true, decide_eq_true_eq] at this
    exact this
  · unfold plannerAssigned windowRedPairs
    rw [List.length_map]
    exact (stableSort_perm _ _).length_eq

/-- Witness for `windowContainment`: one in-window and one out-of-window
upstream pair; one assignment is produced and it is inside the window. -/
theorem windowContainment_witness :
    (∀ a ∈ plannerAssigned [] [] 0 0 (windowRedPairs
        [⟨"r1", 50, 60, false, false, none, none⟩,
         ⟨"r2", 200, 210, false, false, none, none⟩] 0 100),
      (0 : Int) ≤ a.redParkDate ∧ a.redParkDate ≤ 100) ∧
    (plannerAssigned [] [] 0 0 (windowRedPairs
        [⟨"r1", 50, 60, false, false, none, none⟩,
         ⟨"r2", 200, 210, false, false, none, none⟩] 0 100)).length = 1 := by
  have h := windowContainment [] [] 0 0 100
    [⟨"r1", 50, 60, false, false, none, none⟩,
     ⟨"r2", 200, 210, false, false, none, none⟩]
  exact ⟨h.1, by rw [h.2]; decide⟩

/-- C9: invalid simulated-"now" handling.  The plan always computes (the
builder is total); a non-empty override string that fails the strict parse
falls back to the real current time floored to the minute and flags
`overrideOk = false`; an empty or successfully parsed override yields
`overrideOk = true` with the parsed instant (or the real now) floored to
the minute. -/
theorem invalidOverrideFallback (state : PlannerState) (realNow : Int)
    (cfgHours : Int) (busInput : List BusTrip)
    (schedGreen : List SchedPair) (predArl predPark : List (String × Int))
    (schedRed : List SchedPair) (predParkRed predHarv : List (String × Int))
    (alerts : List String) (alertCounts : AlertCounts) :
    (jsTrim state.startOverride ≠ "" →
      parseStartOverride (jsTrim state.startOverride) = none →
      (buildGroupsForWindow state realNow cfgHours busInput schedGreen predArl
        predPark schedRed predParkRed predHarv alerts alertCounts).overrideOk = false ∧
      (buildGroupsForWindow state realNow cfgHours busInput schedGreen predArl
        predPark schedRed predParkRed predHarv alerts alertCounts).start =
        floorToMinute realNow) ∧
    (jsTrim state.startOverride = "" →
      (buildGroupsForWindow state realNow cfgHours busInput schedGreen predArl
        predPark schedRed predParkRed predHarv alerts alertCounts).overrideOk = true ∧
      (buildGroupsForWindow state realNow cfgHours busInput schedGreen predArl
        predPark schedRed predParkRed predHarv alerts alertCounts).start =
        floorToMinute realNow) ∧
    (∀ t : Int, parseStartOverride (jsTrim state.startOverride) = some t →
      (buildGroupsForWindow state realNow cfgHours busInput schedGreen predArl
        predPark schedRed predParkRed predHarv alerts alertCounts).overrideOk = true ∧
      (buildGroupsForWindow state realNow cfgHours busInput schedGreen predArl
        predPark schedRed predParkRed predHarv alerts alertCounts).start =
        floorToMinute t) := by
  refine ⟨?_, ?_, ?_⟩
  · intro h1 h2
    have hni : getNowInfo state realNow = ⟨floorToMinute realNow, false⟩ := by
      simp only [getNowInfo]
      rw [if_pos ⟨h1, h2⟩]
    constructor
    · show (getNowInfo state realNow).overrideOk = false
      rw [hni]
    · show (getNowInfo state realNow).now = floorToMinute realNow
      rw [hni]
  · intro h1
    have h2 : parseStartOverride (jsTrim state.startOverride) = none := by
      rw [h1]
      rfl
    have hni : getNowInfo state realNow = ⟨floorToMinute realNow, true⟩ := by
      simp only [getNowInfo]
      rw [if_neg (fun hc => hc.1 h1), h2]
      rfl
    constructor
    · show (getNowInfo state realNow).overrideOk = true
      rw [hni]
    · show (getNowInfo state realNow).now = floorToMinute realNow
      rw [hni]
  · intro t ht
    have hni : getNowInfo state realNow = ⟨floorToMinute t, true⟩ := by
      simp only [getNowInfo]
      rw [if_neg (fun hc => by rw [ht] at hc; cases hc.2), ht]
      rfl
    constructor
    · show (getNowInfo state realNow).overrideOk = true
      rw [hni]
    · show (getNowInfo state realNow).now = floorToMinute t
      rw [hni]

/-- Witness for `invalidOverrideFallback`: the garbage override
`"yesterday at noon"` fails the strict parse; the plan computes with
`overrideOk = false` and the real clock. -/
theorem invalidOverrideFallback_witness :
    jsTrim "yesterday at noon" ≠ "" ∧
    (buildGroupsForWindow ⟨"yesterday at noon", 5, ""⟩ 1700000123456 3
      [] [] [] [] [] [] [] [] ⟨0, 0, 0⟩).overrideOk = false ∧
    (buildGroupsForWindow ⟨"yesterday at noon", 5, ""⟩ 1700000123456 3
      [] [] [] [] [] [] [] [] ⟨0, 0, 0⟩).start = floorToMinute 1700000123456 := by
  have h := (invalidOverrideFallback ⟨"yesterday at noon", 5, ""⟩ 1700000123456 3
    [] [] [] [] [] [] [] [] ⟨0, 0, 0⟩).1 (by decide) (by decide)
  exact ⟨by decide, h.1, h.2⟩

/-! ## C10: the collapsed row's best flag mirrors the group's best flag -/

theorem collapseLast_bestRow (lastRow : Row) (li? : Option Assignment) :
    (collapseLast lastRow li?).bestRow = lastRow.bestRow := by
  cases li? with
  | none => rfl
  | some li =>
    simp only [collapseLast]
    split <;> rfl

theorem expandedItemRows_length (includeHome : Bool) (g : PlanGroup) :
    (expandedItemRows includeHome g).length = g.items.length := by
  unfold expandedItemRows
  rw [List.length_map, List.enum_length]

theorem expandedItemRows_bestRow (includeHome : Bool) (g : PlanGroup) :
    ∀ r ∈ expandedItemRows includeHome g, r.bestRow = false := by
  intro r hr
  obtain ⟨pr, _, hpr⟩ := List.mem_map.mp hr
  rw [← hpr]

theorem getLastD_mem {α : Type} [Inhabited α] (l : List α) (hne : l ≠ []) :
    l.getLastD default ∈ l := by
  rw [List.getLastD_eq_getLast?, List.getLast?_eq_getLast _ hne]
  exact List.getLast_mem hne

theorem markLastRowBest_getLast_bestRow (rows : List Row) (hne : rows ≠ []) :
    ((markLastRowBest (rows.length - 1) rows).getLastD default).bestRow = true := by
  have hlen : (markLastRowBest (rows.length - 1) rows).length = rows.length := by
    unfold markLastRowBest
    rw [List.length_map, List.enum_length]
  have hpos : 0 < rows.length := List.length_pos.mpr hne
  rw [List.getLastD_eq_getLast?, List.getLast?_eq_getElem?, hlen]
  have hidx : rows.length - 1 < (markLastRowBest (rows.length - 1) rows).length := by
    omega
  rw [List.getElem?_eq_getElem hidx]
  simp only [Option.getD_some]
  unfold markLastRowBest
  rw [List.getElem_map, List.getElem_enum]
  simp

/-- The output group's `best` equals the group's `best` flag. -/
theorem buildRowsForGroup_best (includeHome : Bool) (start endT now layoverMin : Int)
    (g : PlanGroup) :
    (buildRowsForGroup includeHome start endT now layoverMin g).best = g.best := by
  unfold buildRowsForGroup
  split <;> rfl

/-- The output group's key equals the group's key. -/
theorem buildRowsForGroup_key (includeHome : Bool) (start endT now layoverMin : Int)
    (g : PlanGroup) :
    (buildRowsForGroup includeHome start endT now layoverMin g).key = g.key := by
  unfold buildRowsForGroup
  split <;> rfl

/-- For a group that can only be best when it has items, the collapsed
row's `bestRow` flag equals the group's `best` flag. -/
theorem buildRowsForGroup_collapsed_bestRow (includeHome : Bool)
    (start endT now layoverMin : Int) (g : PlanGroup)
    (hbe : g.best = true → 0 < g.items.length) :
    (buildRowsForGroup includeHome start endT now layoverMin g).rowsCollapsed.bestRow
      = g.best := by
  unfold buildRowsForGroup
  by_cases hlen : g.items.length = 0
  · rw [if_pos hlen]
    cases hb : g.best with
    | false => rfl
    | true => exact absurd (hbe hb) (by omega)
  · rw [if_neg hlen]
    simp only []
    rw [collapseLast_bestRow]
    have hne : expandedItemRows includeHome g ≠ [] := by
      intro h
      have := expandedItemRows_length includeHome g
      rw [h] at this
      simp at this
      omega
    cases hb : g.best with
    | true =>
      rw [if_pos rfl]
      rw [← expandedItemRows_length includeHome g]
      exact markLastRowBest_getLast_bestRow _ hne
    | false =>
      rw [if_neg (by simp)]
      exact expandedItemRows_bestRow includeHome g _ (getLastD_mem _ hne)

/-- A group marked best by `markBestGroups` has at least one item. -/
theorem markBestGroups_best_items (l : List PlanGroup) (g : PlanGroup)
    (hg : g ∈ markBestGroups l) (hb : g.best = true) : 0 < g.items.length := by
  simp only [markBestGroups] at hg
  obtain ⟨g0, _, hg0⟩ := List.mem_map.mp hg
  rw [← hg0] at hb
  simp only [] at hb
  have := (Bool.and_eq_true_iff.mp hb).1
  have husable := (Bool.and_eq_true_iff.mp this).2
  rw [← hg0]
  simpa using husable

theorem find?_congr_mem {α : Type} (p q : α → Bool) :
    ∀ l : List α, (∀ x ∈ l, p x = q x) → l.find? p = l.find? q := by
  intro l
  induction l with
  | nil => intro _; rfl
  | cons a t ih =>
    intro h
    by_cases hp : p a = true
    · rw [List.find?_cons_of_pos _ hp, List.find?_cons_of_pos _ (by rw [← h a (by simp)]; exact hp)]
    · rw [List.find?_cons_of_neg _ hp,
        List.find?_cons_of_neg _ (by rw [← h a (by simp)]; exact hp)]
      exact ih (fun x hx => h x (List.mem_cons_of_mem a hx))

/-- C10: for every group in the returned plan, the collapsed row's
`bestRow` flag holds iff the group itself is marked best (empty groups are
never best, and for item groups the collapsed row copies the last expanded
row whose `bestRow` is set exactly when the group is best); consequently
`getBestGroup`, which scans `rowsCollapsed.bestRow`, selects exactly the
best-marked groups. -/
theorem collapsedBestRowIffBest (state : PlannerState) (realNow : Int)
    (cfgHours : Int) (busInput : List BusTrip)
    (schedGreen : List SchedPair) (predArl predPark : List (String × Int))
    (schedRed : List SchedPair) (predParkRed predHarv : List (String × Int))
    (alerts : List String) (alertCounts : AlertCounts) :
    (∀ og ∈ (buildGroupsForWindow state realNow cfgHours busInput schedGreen predArl
        predPark schedRed predParkRed predHarv alerts alertCounts).groups,
      og.rowsCollapsed.bestRow = og.best) ∧
    getBestGroup (buildGroupsForWindow state realNow cfgHours busInput schedGreen predArl
        predPark schedRed predParkRed predHarv alerts alertCounts) =
      (buildGroupsForWindow state realNow cfgHours busInput schedGreen predArl
        predPark schedRed predParkRed predHarv alerts alertCounts).groups.find?
        (fun g => g.best) := by
  have h1 : ∀ og ∈ (buildGroupsForWindow state realNow cfgHours busInput schedGreen predArl
      predPark schedRed predParkRed predHarv alerts alertCounts).groups,
      og.rowsCollapsed.bestRow = og.best := by
    intro og hog
    obtain ⟨g, hgmem, hg⟩ := List.mem_map.mp hog
    have hbe : g.best = true → 0 < g.items.length := by
      intro hb
      exact markBestGroups_best_items _ g hgmem hb
    rw [← hg, buildRowsForGroup_best, buildRowsForGroup_collapsed_bestRow _ _ _ _ _ _ hbe]
  refine ⟨h1, ?_⟩
  unfold getBestGroup
  exact find?_congr_mem _ _ _ (fun og hog => by rw [h1 og hog])

/-- Witness for `collapsedBestRowIffBest` at concrete (empty-feed)
inputs. -/
theorem collapsedBestRowIffBest_witness :
    getBestGroup (buildGroupsForWindow ⟨"", 5, ""⟩ 0 3 [] [] [] [] [] [] [] [] ⟨0, 0, 0⟩) =
      (buildGroupsForWindow ⟨"", 5, ""⟩ 0 3 [] [] [] [] [] [] [] [] ⟨0, 0, 0⟩).groups.find?
        (fun g => g.best) :=
  (collapsedBestRowIffBest ⟨"", 5, ""⟩ 0 3 [] [] [] [] [] [] [] [] ⟨0, 0, 0⟩).2

/-! ## C6: empty-bus-group visibility and the synthesized layover -/

/-- A grouping-map list already has an entry under key `k`. -/
def hasKey (gs : List GroupRaw) (k : GKey) : Prop :=
  ∃ g ∈ gs, g.key = k

theorem hasKey_ensureBusGroup (includeHome : Bool) (start endT : Int)
    (gs : List GroupRaw) (b : BusTrip) (k : GKey) (h : hasKey gs k) :
    hasKey (ensureBusGroup includeHome start endT gs b) k := by
  obtain ⟨g, hg, hk⟩ := h
  unfold ensureBusGroup
  by_cases h1 : ((decide (start ≤ b.dep) && decide (b.dep ≤ endT)) ||
      (includeHome && homeInWindowB start endT b.home)) = true
  · rw [if_pos h1]
    by_cases h2 : gs.any (fun g => decide (g.key = GKey.bus b.dep b.tripId)) = true
    · rw [if_pos h2]
      exact ⟨g, hg, hk⟩
    · rw [if_neg h2]
      exact ⟨g, List.mem_append_left _ hg, hk⟩
  · rw [if_neg h1]
    exact ⟨g, hg, hk⟩

theorem hasKey_ensureBusGroup_self (includeHome : Bool) (start endT : Int)
    (gs : List GroupRaw) (b : BusTrip)
    (hcond : ((decide (start ≤ b.dep) && decide (b.dep ≤ endT)) ||
      (includeHome && homeInWindowB start endT b.home)) = true) :
    hasKey (ensureBusGroup includeHome start endT gs b) (GKey.bus b.dep b.tripId) := by
  unfold ensureBusGroup
  rw [if_pos hcond]
  by_cases h2 : gs.any (fun g => decide (g.key = GKey.bus b.dep b.tripId)) = true
  · rw [if_pos h2]
    obtain ⟨g, hg, hk⟩ := List.any_eq_true.mp h2
    exact ⟨g, hg, by simpa using hk⟩
  · rw [if_neg h2]
    exact ⟨⟨GKey.bus b.dep b.tripId, []⟩, List.mem_append_right _ (by simp), rfl⟩

theorem hasKey_foldl_ensure (includeHome : Bool) (start endT : Int) (k : GKey) :
    ∀ (l : List BusTrip) (gs : List GroupRaw), hasKey gs k →
      hasKey (l.foldl (ensureBusGroup includeHome start endT) gs) k := by
  intro l
  induction l with
  | nil => intro gs h; exact h
  | cons a t ih =>
    intro gs h
    rw [List.foldl_cons]
    exact ih _ (hasKey_ensureBusGroup _ _ _ _ _ _ h)

theorem hasKey_foldl_ensure_mem (includeHome : Bool) (start endT : Int) :
    ∀ (l : List BusTrip) (gs : List GroupRaw) (b : BusTrip), b ∈ l →
      ((decide (start ≤ b.dep) && decide (b.dep ≤ endT)) ||
        (includeHome && homeInWindowB start endT b.home)) = true →
      hasKey (l.foldl (ensureBusGroup includeHome start endT) gs)
        (GKey.bus b.dep b.tripId) := by
  intro l
  induction l with
  | nil => intro gs b hb; simp at hb
  | cons a t ih =>
    intro gs b hb hcond
    rw [List.foldl_cons]
    rcases List.mem_cons.mp hb with hb | hb
    · subst hb
      exact hasKey_foldl_ensure _ _ _ _ _ _
        (hasKey_ensureBusGroup_self _ _ _ _ _ hcond)
    · exact ih _ b hb hcond

/-- With pairwise-distinct `(dep, tripId)` keys, `busLookup` finds exactly
the member with that key. -/
theorem busLookup_eq_some (busSorted : List BusTrip) (b : BusTrip)
    (hkeys : (busSorted.map (fun x => (x.dep, x.tripId))).Nodup)
    (hb : b ∈ busSorted) :
    busLookup busSorted b.dep b.tripId = some b := by
  unfold busLookup
  cases hfind : busSorted.reverse.find?
      (fun x => decide (x.dep = b.dep) && decide (x.tripId = b.tripId)) with
  | none =>
    exfalso
    rw [List.find?_eq_none] at hfind
    exact hfind b (List.mem_reverse.mpr hb) (by simp)
  | some y =>
    have hy : y ∈ busSorted := List.mem_reverse.mp (List.mem_of_find?_eq_some hfind)
    have hp := List.find?_some hfind
    simp only [Bool.and_eq_true, decide_eq_true_eq] at hp
    have : y = b := List.inj_on_of_nodup_map hkeys hy hb (by
      rw [hp.1, hp.2])
    rw [this]

theorem attachMeta_key (busSorted : List BusTrip) (g : GroupRaw) :
    (attachMeta busSorted g).key = g.key := by
  simp only [attachMeta]
  split <;> simp_all

/-- The meta attached to a bus-keyed group entry. -/
theorem attachMeta_meta_bus (busSorted : List BusTrip) (g : GroupRaw)
    (dep : Int) (tripId : String) (hk : g.key = GKey.bus dep tripId) :
    (attachMeta busSorted g).meta =
      ⟨tripId, some dep,
        (busLookup busSorted dep tripId).bind (fun x => x.arrDisp),
        ((busLookup busSorted dep tripId).map (fun x => x.arrPred)).getD false,
        (busLookup busSorted dep tripId).bind (fun x => x.schedArr),
        (busLookup busSorted dep tripId).bind (fun x => x.home),
        ((busLookup busSorted dep tripId).map (fun x => x.homePred)).getD false,
        (busLookup busSorted dep tripId).bind (fun x => x.schedHome),
        none⟩ := by
  simp only [attachMeta]
  rw [hk]

/-- Every group of `plannerGroups` with a bus key carries the meta built
from `busLookup`, and its items are those of its raw entry. -/
theorem plannerGroups_meta (busSorted : List BusTrip) (includeHome : Bool)
    (start endT : Int) (assigned : List Assignment) (g : PlanGroup)
    (hg : g ∈ plannerGroups busSorted includeHome start endT assigned)
    (dep : Int) (tripId : String) (hk : g.key = GKey.bus dep tripId) :
    g.meta =
      ⟨tripId, some dep,
        (busLookup busSorted dep tripId).bind (fun x => x.arrDisp),
        ((busLookup busSorted dep tripId).map (fun x => x.arrPred)).getD false,
        (busLookup busSorted dep tripId).bind (fun x => x.schedArr),
        (busLookup busSorted dep tripId).bind (fun x => x.home),
        ((busLookup busSorted dep tripId).map (fun x => x.homePred)).getD false,
        (busLookup busSorted dep tripId).bind (fun x => x.schedHome),
        none⟩ := by
  simp only [plannerGroups, markBestGroups] at hg
  obtain ⟨g1, hg1, hgf⟩ := List.mem_map.mp hg
  have hg1m : g1 ∈ (plannerGroupsRaw busSorted includeHome start endT assigned).map
      (attachMeta busSorted) :=
    (stableSort_perm _ _).mem_iff.mp hg1
  obtain ⟨raw, _, hatt⟩ := List.mem_map.mp hg1m
  have hmeta : g.meta = g1.meta := by rw [← hgf]
  have hkey : g.key = g1.key := by rw [← hgf]
  have hrawkey : raw.key = GKey.bus dep tripId := by
    rw [← attachMeta_key busSorted raw, hatt, ← hkey]
    exact hk
  rw [hmeta, ← hatt, attachMeta_meta_bus busSorted raw dep tripId hrawkey]

theorem homewardFilter_sublist (includeHome : Bool) (busInput : List BusTrip) :
    (homewardFilter includeHome busInput).Sublist busInput := by
  unfold homewardFilter
  split
  · exact List.filter_sublist busInput
  · exact List.Sublist.refl busInput

/-- Lift a key from the raw grouping map into `plannerGroups`. -/
theorem plannerGroups_hasKey (busSorted : List BusTrip) (includeHome : Bool)
    (start endT : Int) (assigned : List Assignment) (k : GKey)
    (h : hasKey (plannerGroupsRaw busSorted includeHome start endT assigned) k) :
    ∃ g ∈ plannerGroups busSorted includeHome start endT assigned, g.key = k := by
  obtain ⟨g0, hg0, hkey⟩ := h
  have h1 : attachMeta busSorted g0 ∈
      (plannerGroupsRaw busSorted includeHome start endT assigned).map
        (attachMeta busSorted) :=
    List.mem_map_of_mem _ hg0
  have h2 : attachMeta busSorted g0 ∈
      stableSort groupLE
        ((plannerGroupsRaw busSorted includeHome start endT assigned).map
          (attachMeta busSorted)) :=
    (stableSort_perm _ _).mem_iff.mpr h1
  simp only [plannerGroups, markBestGroups]
  refine ⟨_, List.mem_map_of_mem _ h2, ?_⟩
  show (attachMeta busSorted g0).key = k
  rw [attachMeta_key]
  exact hkey

/-- In the item rows of a non-empty group, the Park cell always shows a
time, never the dash placeholder. -/
theorem expandedItemRows_park (includeHome : Bool) (g : PlanGroup) :
    ∀ r ∈ expandedItemRows includeHome g, r.park ≠ dashCell := by
  intro r hr
  obtain ⟨pr, _, hpr⟩ := List.mem_map.mp hr
  rw [← hpr]
  intro hcon
  simp only [dashCell] at hcon
  have : CellText.time pr.2.redParkDate = CellText.dash := congrArg TimeCell.text hcon
  cases this

theorem markLastRowBest_park (bestIdx : Nat) (rows : List Row) :
    ∀ r ∈ markLastRowBest bestIdx rows, ∃ r0 ∈ rows, r.park = r0.park := by
  intro r hr
  obtain ⟨pr, hprm, hpr⟩ := List.mem_map.mp hr
  refine ⟨pr.2, List.snd_mem_of_mem_enum hprm, ?_⟩
  rw [← hpr]
  by_cases h : pr.1 = bestIdx
  · rw [if_pos h]
  · rw [if_neg h]

/-- A row of the expanded view whose Park cell is the dash placeholder can
only come from the empty-group branch, and its layover is the synthesized
one. -/
theorem buildRowsForGroup_empty_layover (ih : Bool) (s e now lm : Int)
    (g : PlanGroup) (r : Row)
    (hr : r ∈ (buildRowsForGroup ih s e now lm g).rowsExpanded)
    (hpark : r.park = dashCell) :
    g.items.length = 0 ∧
    r.layover = (if onlyHomeLeftB ih s e g.meta.busArr
        (if ih then g.meta.home else none) = true
      then LayoverText.dash
      else
        match (g.meta.busArr.map (fun a => max 0 ((a - now).fdiv msPerMin))).map
            (fun m => min m (max 0 lm)) with
        | none => LayoverText.dash
        | some m => LayoverText.wait m) := by
  unfold buildRowsForGroup at hr
  by_cases hlen : g.items.length = 0
  · rw [if_pos hlen] at hr
    simp only [] at hr
    rw [List.mem_singleton] at hr
    subst hr
    exact ⟨hlen, rfl⟩
  · rw [if_neg hlen] at hr
    exfalso
    simp only [] at hr
    by_cases hbst : g.best = true
    · rw [if_pos hbst] at hr
      obtain ⟨r0, hr0, hpk⟩ := markLastRowBest_park _ _ r hr
      exact expandedItemRows_park ih g r0 hr0 (by rw [← hpk]; exact hpark)
    · rw [if_neg hbst] at hr
      exact expandedItemRows_park ih g r hr hpark

/-- C6 (amended): empty-bus-group visibility and synthesized layover.
Every bus trip of the merged list that survives the homeward-bound filter
and whose middle-stop departure — or, when the home leg is included, home
arrival — lies within `[window.start, window.end]` appears as its own
group even when zero upstream assignments connect to it.  For such an
empty group with a middle-stop arrival `arr`, the displayed layover is
`min(max(0, whole minutes from now until arr), max(0, configured layover
minutes))` — except in the `onlyHomeLeft` case (home arrival in-window
while the middle-stop arrival is outside the window), where a dash is
shown — and a displayed layover never exceeds the configured buffer. -/
theorem emptyBusGroupVisibility (state : PlannerState) (realNow : Int)
    (cfgHours : Int) (busInput : List BusTrip)
    (schedGreen : List SchedPair) (predArl predPark : List (String × Int))
    (schedRed : List SchedPair) (predParkRed predHarv : List (String × Int))
    (alerts : List String) (alertCounts : AlertCounts)
    (start endT : Int)
    (hstart : start = (getNowInfo state realNow).now)
    (hend : endT = start + cfgHours * 3600 * 1000)
    (hkeys : (busInput.map (fun x => (x.dep, x.tripId))).Nodup)
    (b : BusTrip)
    (hb : b ∈ homewardFilter (decide (jsTrim state.homeStop ≠ "")) busInput)
    (hwin : ((decide (start ≤ b.dep) && decide (b.dep ≤ endT)) ||
      (decide (jsTrim state.homeStop ≠ "") && homeInWindowB start endT b.home)) = true) :
    (∃ og ∈ (buildGroupsForWindow state realNow cfgHours busInput schedGreen predArl
        predPark schedRed predParkRed predHarv alerts alertCounts).groups,
      og.key = GKey.bus b.dep b.tripId) ∧
    (∀ og ∈ (buildGroupsForWindow state realNow cfgHours busInput schedGreen predArl
        predPark schedRed predParkRed predHarv alerts alertCounts).groups,
      og.key = GKey.bus b.dep b.tripId →
      ∀ r ∈ og.rowsExpanded, r.park = dashCell →
        ∀ arr : Int, b.arrDisp = some arr →
          (r.layover = (if onlyHomeLeftB (decide (jsTrim state.homeStop ≠ "")) start endT
              (some arr) (if decide (jsTrim state.homeStop ≠ "") then b.home else none) = true
            then LayoverText.dash
            else LayoverText.wait (min (max 0 ((arr - getNow state realNow).fdiv msPerMin))
              (max 0 state.layoverMin)))) ∧
          (∀ m : Int, r.layover = LayoverText.wait m → m ≤ max 0 state.layoverMin)) := by
  subst hstart
  subst hend
  obtain ⟨asg, hgroups⟩ : ∃ asg : List Assignment,
      (buildGroupsForWindow state realNow cfgHours busInput schedGreen predArl
        predPark schedRed predParkRed predHarv alerts alertCounts).groups =
      (plannerGroups (homewardFilter (decide (jsTrim state.homeStop ≠ "")) busInput)
        (decide (jsTrim state.homeStop ≠ ""))
        (getNowInfo state realNow).now
        ((getNowInfo state realNow).now + cfgHours * 3600 * 1000)
        asg).map
      (buildRowsForGroup (decide (jsTrim state.homeStop ≠ ""))
        (getNowInfo state realNow).now
        ((getNowInfo state realNow).now + cfgHours * 3600 * 1000)
        (getNow state realNow) state.layoverMin) := ⟨_, rfl⟩
  have hrawkey : hasKey (plannerGroupsRaw
      (homewardFilter (decide (jsTrim state.homeStop ≠ "")) busInput)
      (decide (jsTrim state.homeStop ≠ ""))
      (getNowInfo state realNow).now
      ((getNowInfo state realNow).now + cfgHours * 3600 * 1000) asg)
      (GKey.bus b.dep b.tripId) :=
    hasKey_foldl_ensure_mem _ _ _ _ _ b hb hwin
  obtain ⟨g0, hg0, hg0k⟩ := plannerGroups_hasKey _ _ _ _ asg _ hrawkey
  have hsubkeys : ((homewardFilter (decide (jsTrim state.homeStop ≠ "")) busInput).map
      (fun x => (x.dep, x.tripId))).Nodup :=
    List.Nodup.sublist
      (List.Sublist.map _ (homewardFilter_sublist _ busInput)) hkeys
  constructor
  · refine ⟨buildRowsForGroup (decide (jsTrim state.homeStop ≠ ""))
      (getNowInfo state realNow).now
      ((getNowInfo state realNow).now + cfgHours * 3600 * 1000)
      (getNow state realNow) state.layoverMin g0, ?_, ?_⟩
    · rw [hgroups]
      exact List.mem_map_of_mem _ hg0
    · rw [buildRowsForGroup_key]
      exact hg0k
  · intro og hog hogk r hr hpark arr harr
    rw [hgroups] at hog
    obtain ⟨g, hgmem, hgeq⟩ := List.mem_map.mp hog
    rw [← hgeq, buildRowsForGroup_key] at hogk
    have hmeta := plannerGroups_meta _ _ _ _ asg g hgmem b.dep b.tripId hogk
    have hlook : busLookup (homewardFilter (decide (jsTrim state.homeStop ≠ "")) busInput)
        b.dep b.tripId = some b :=
      busLookup_eq_some _ b hsubkeys hb
    rw [hlook] at hmeta
    simp only [Option.bind_some, Option.map_some', Option.getD_some] at hmeta
    rw [← hgeq] at hr
    obtain ⟨hlen, hlay⟩ := buildRowsForGroup_empty_layover _ _ _ _ _ g r hr hpark
    have hbusArr : g.meta.busArr = some arr := by
      rw [hmeta]
      exact harr
    have hhome : g.meta.home = b.home := by
      rw [hmeta]
      rfl
    rw [hbusArr, hhome] at hlay
    simp only [Option.map_some'] at hlay
    constructor
    · exact hlay
    · intro m hm
      rw [hlay] at hm
      by_cases hoh : onlyHomeLeftB (decide (jsTrim state.homeStop ≠ ""))
          (getNowInfo state realNow).now
          ((getNowInfo state realNow).now + cfgHours * 3600 * 1000)
          (some arr) (if decide (jsTrim state.homeStop ≠ "") then b.home else none) = true
      · rw [if_pos hoh] at hm
        cases hm
      · rw [if_neg hoh] at hm
        injection hm with hm
        rw [← hm]
        exact min_le_right _ _

/-- Counterexample to C6 as stated: with the home leg included, a bus that
already left Harvard (departure 30 min and middle-stop arrival 20 min
before the window start) but whose home arrival is still in the window
appears as its own empty group — yet its displayed layover is the dash
placeholder (the `onlyHomeLeft` branch), not the claimed
`min(max(0, minutes to the middle-stop arrival), buffer)` value
(which would be `0 min`). -/
theorem emptyBusGroup_counterexample :
    ((buildGroupsForWindow ⟨"", 5, "H"⟩ 0 3
      [⟨"t1", -1800000, false, none, some (-1200000), false, none, some 3600000, false, none⟩]
      [] [] [] [] [] [] [] ⟨0, 0, 0⟩).groups.map (fun og => og.key)
        = [GKey.bus (-1800000) "t1"]) ∧
    ((buildGroupsForWindow ⟨"", 5, "H"⟩ 0 3
      [⟨"t1", -1800000, false, none, some (-1200000), false, none, some 3600000, false, none⟩]
      [] [] [] [] [] [] [] ⟨0, 0, 0⟩).groups.map
        (fun og => og.rowsExpanded.map (fun r => (r.park, r.layover)))
        = [[(dashCell, LayoverText.dash)]]) ∧
    LayoverText.dash ≠
      LayoverText.wait (min (max 0 (((-1200000 : Int) - 0).fdiv msPerMin)) (max 0 5)) := by
  refine ⟨?_, ?_, ?_⟩
  · decide
  · decide
  · decide

/-- Witness for `emptyBusGroupVisibility` at the counterexample inputs:
the homeward bus with an in-window home arrival gets its own group. -/
theorem emptyBusGroupVisibility_witness :
    ∃ og ∈ (buildGroupsForWindow ⟨"", 5, "H"⟩ 0 3
      [⟨"t1", -1800000, false, none, some (-1200000), false, none, some 3600000, false, none⟩]
      [] [] [] [] [] [] [] ⟨0, 0, 0⟩).groups,
      og.key = GKey.bus (-1800000) "t1" :=
  (emptyBusGroupVisibility ⟨"", 5, "H"⟩ 0 3
    [⟨"t1", -1800000, false, none, some (-1200000), false, none, some 3600000, false, none⟩]
    [] [] [] [] [] [] [] ⟨0, 0, 0⟩ 0 10800000 (by decide) (by decide) (by decide)
    ⟨"t1", -1800000, false, none, some (-1200000), false, none, some 3600000, false, none⟩
    (by decide) (by decide)).1
